import Mathlib

/-!
Verification of the Othello engine and its negamax search agent
(`srl/envs/othello.py`) against the repository specification.

The engine is embedded shallowly: the mutable `Othello` environment object
becomes an immutable structure, and the mutating methods become functions
returning the updated structure.  Machine integers are modelled by `Int`
(all values in the source stay tiny), numpy arrays by `List Int`, and the
process-global dict `Cpu.cache` by an association list threaded through
the search.  Rewards are declared `float` in the source but every value
produced is an integer (`-1, 0, 1` and products with `500`), so `Int`
models the scores exactly.
-/

set_option maxHeartbeats 1000000

/-- The eight scan directions of `_calc_movable_dirs`, in source order:
`(diff_x, diff_y, dir_)` with the numeric-keypad direction code. -/
def dirTriples : List (Int × Int × Nat) :=
  [(-1, 1, 1), (0, 1, 2), (1, 1, 3), (1, 0, 6),
   (1, -1, 9), (0, -1, 8), (-1, -1, 7), (-1, 0, 4)]

/-- `get_field`: boundary queries return the sentinel `9`; in-bounds queries
read the flat row-major cell list.  (`field[W*y+x]` is always an in-range
read in the source because the guards ensure `0 ≤ x < W`, `0 ≤ y < H`.) -/
def getf (W H : Nat) (field : List Int) (x y : Int) : Int :=
  if x < 0 then 9
  else if (W : Int) ≤ x then 9
  else if y < 0 then 9
  else if (H : Int) ≤ y then 9
  else field.getD (W * y.toNat + x.toNat) 0

/-- The inner `while`-loop of `_calc_movable_dirs`: starting at `(x, y)`,
step in direction `(dx, dy)` past cells holding `enemy` and return the
first other value met.  The source loop is unbounded but always stops
within `max W H` steps (an `enemy`-coloured cell is necessarily in
bounds), so fuel `W + H` strictly dominates its running time; the `0`
case returns the off-board sentinel and is unreachable at that fuel. -/
def scanColor (W H : Nat) (field : List Int) (enemy dx dy : Int) :
    Nat → Int → Int → Int
  | 0, _, _ => 9
  | fuel + 1, x, y =>
      if getf W H field x y = enemy then
        scanColor W H field enemy dx dy fuel (x + dx) (y + dy)
      else getf W H field x y

/-- One direction test of `_calc_movable_dirs`: the adjacent cell holds the
enemy colour and, scanning onwards from two steps out, the run of enemy
cells is terminated by the mover's own colour. -/
def dirOk (W H : Nat) (field : List Int) (my enemy x y dx dy : Int) : Bool :=
  decide (getf W H field (x + dx) (y + dy) = enemy) &&
  decide (scanColor W H field enemy dx dy (W + H) (x + 2 * dx) (y + 2 * dy) = my)

/-- Direction list of one cell in `_calc_movable_dirs`: empty for occupied
cells, otherwise the codes of the directions passing `dirOk`, in source
order. -/
def cellDirs (W H : Nat) (field : List Int) (my enemy x y : Int) : List Nat :=
  if getf W H field x y ≠ 0 then []
  else (dirTriples.filter
    (fun t => dirOk W H field my enemy x y t.1 t.2.1)).map (fun t => t.2.2)

/-- `my_color = 1 if player_index == 0 else -1`. -/
def myColor (p : Nat) : Int := if p = 0 then 1 else -1

/-- `_calc_movable_dirs(player_index)`: for every flat cell index the list
of movable direction codes.  Cell `a` corresponds to coordinates
`(a % W, a / W)` exactly as in `pos` / `pos_decode`. -/
def calc_movable_dirs (W H : Nat) (field : List Int) (p : Nat) : List (List Nat) :=
  (List.range (W * H)).map (fun a =>
    cellDirs W H field (myColor p) (-(myColor p))
      ((a % W : Nat) : Int) ((a / W : Nat) : Int))

/-- The `Othello` environment state: board size, flat cell list with values
in `{-1, 0, 1}` (plus whatever a caller might store), current mover,
the two cached movable-direction maps `movable_dirs[0]`, `movable_dirs[1]`,
and the last action (kept for display). -/
structure Othello where
  W : Nat
  H : Nat
  field : List Int
  player_index : Nat
  mdirs0 : List (List Nat)
  mdirs1 : List (List Nat)
  action : Nat
deriving DecidableEq

/-- `movable_dirs[p]` (the source stores a two-element list indexed by the
player, who is always `0` or `1`). -/
def mdirs (e : Othello) (p : Nat) : List (List Nat) :=
  if p = 0 then e.mdirs0 else e.mdirs1

/-- `call_reset`: zero board, four centre stones, player `0` to move,
movable-direction maps recomputed for both players. -/
def call_reset (W H : Nat) : Othello :=
  let cx : Nat := W / 2 - 1
  let cy : Nat := H / 2 - 1
  let f : List Int :=
    ((((List.replicate (W * H) 0).set (W * cy + cx) 1).set
        (W * (cy + 1) + (cx + 1)) 1).set
        (W * cy + (cx + 1)) (-1)).set
        (W * (cy + 1) + cx) (-1)
  { W := W, H := H, field := f, player_index := 0,
    mdirs0 := calc_movable_dirs W H f 0,
    mdirs1 := calc_movable_dirs W H f 1,
    action := 0 }

/-- `get_invalid_actions(player_index)`. -/
def get_invalid_actions (e : Othello) (p : Nat) : List Nat :=
  (List.range (e.H * e.W)).filter (fun a => ((mdirs e p).getD a []).isEmpty)

/-- Modelled from the spec: `get_valid_actions` lives in the base
environment class (`srl.base.env.base`), which is not under `src/`; per
§4.2 it is `legalActions(player)`, the complement of
`illegalActions(player)` inside the action space. -/
def get_valid_actions (e : Othello) (p : Nat) : List Nat :=
  (List.range (e.H * e.W)).filter (fun a => !((mdirs e p).getD a []).isEmpty)

/-- The `move_diff` table of `_step` (keypad code to unit step).  Codes
outside the table would raise `KeyError` in the source; they are never
produced by `_calc_movable_dirs`, and the catch-all value is junk. -/
def move_diff (d : Nat) : Int × Int :=
  match d with
  | 1 => (-1, 1)
  | 2 => (0, 1)
  | 3 => (1, 1)
  | 6 => (1, 0)
  | 9 => (1, -1)
  | 8 => (0, -1)
  | 7 => (-1, -1)
  | 4 => (-1, 0)
  | _ => (0, 0)

/-- The flipping `while`-loop of `_step`: walk from `(x, y)` in direction
`(dx, dy)`, recolouring every cell to `my` until a `my`-coloured cell is
met.  On a movable direction the walk meets the mover's own stone before
leaving the board, so fuel `W + H + 2` dominates it; the source computes
the write index as `W*y + x`, which is always the in-bounds flat index on
such walks (the `Int.toNat` clamp is never exercised). -/
def flipWalk (W H : Nat) (my dx dy : Int) :
    Nat → Int → Int → List Int → List Int
  | 0, _, _, field => field
  | fuel + 1, x, y, field =>
      if getf W H field x y = my then field
      else flipWalk W H my dx dy fuel (x + dx) (y + dy)
        (field.set (W * y.toNat + x.toNat) my)

/-- `_step(action)`: place the mover's stone, flip along every cached
movable direction of the chosen cell, then recompute both
movable-direction maps against the new board. -/
def step_move (e : Othello) (action : Nat) : Othello :=
  let x : Int := ((action % e.W : Nat) : Int)
  let y : Int := ((action / e.W : Nat) : Int)
  let my := myColor e.player_index
  let f1 := e.field.set action my
  let f2 := ((mdirs e e.player_index).getD action []).foldl
    (fun f d =>
      flipWalk e.W e.H my (move_diff d).1 (move_diff d).2
        (e.W + e.H + 2) (x + (move_diff d).1) (y + (move_diff d).2) f) f1
  { e with field := f2,
           mdirs0 := calc_movable_dirs e.W e.H f2 0,
           mdirs1 := calc_movable_dirs e.W e.H f2 1 }

/-- `enemy_player` of `call_step`. -/
def enemy_player (e : Othello) : Nat := if e.player_index = 0 then 1 else 0

/-- `my_player` of `call_step`. -/
def my_player (e : Othello) : Nat := if e.player_index = 0 then 0 else 1

/-- `put_num`: `action_space.n - len(get_invalid_actions(p))`. -/
def put_num (e : Othello) (p : Nat) : Nat :=
  e.W * e.H - (get_invalid_actions e p).length

/-- Number of cells holding colour `c` (`p1_count` / `p2_count`). -/
def countColor (f : List Int) (c : Int) : Nat :=
  (f.filter (fun v => v == c)).length

/-- `call_step(action)`, returning the updated environment together with
`(reward0, reward1, done, info)`; the info dict `{"P1":…, "P2":…}` is
modelled as `Option (Nat × Nat)`. -/
def call_step (e : Othello) (action : Nat) :
    Othello × Int × Int × Bool × Option (Nat × Nat) :=
  let e := { e with action := action }
  if ((mdirs e e.player_index).getD action []).isEmpty then
    if e.player_index = 0 then (e, -1, 0, true, none)
    else (e, 0, -1, true, none)
  else
    let e2 := step_move e action
    let enemy_put := put_num e2 (enemy_player e2)
    let my_put := put_num e2 (my_player e2)
    if enemy_put = 0 ∧ my_put = 0 then
      let p1 := countColor e2.field 1
      let p2 := countColor e2.field (-1)
      if p2 < p1 then (e2, 1, -1, true, some (p1, p2))
      else if p1 < p2 then (e2, -1, 1, true, some (p1, p2))
      else (e2, 0, 0, true, some (p1, p2))
    else if enemy_put = 0 then
      (e2, 0, 0, false, none)
    else
      ({ e2 with player_index := enemy_player e2 }, 0, 0, false, none)

/-- Number of non-empty cells of a board. -/
def countNZ (f : List Int) : Nat := (f.filter (fun v => v != 0)).length

/-- Build an environment from a raw board with both movable-direction maps
computed for it (the form every reachable state has). -/
def mkState (W H : Nat) (field : List Int) (p : Nat) : Othello :=
  { W := W, H := H, field := field, player_index := p,
    mdirs0 := calc_movable_dirs W H field 0,
    mdirs1 := calc_movable_dirs W H field 1,
    action := 0 }

/-- Well-formedness of an environment state: the board has the right
length, cells are trinary, the mover is `0` or `1`, and the cached
movable-direction maps agree with the current board. -/
def WF (e : Othello) : Prop :=
  e.field.length = e.W * e.H ∧
  (∀ v ∈ e.field, v = -1 ∨ v = 0 ∨ v = 1) ∧
  (e.player_index = 0 ∨ e.player_index = 1) ∧
  e.mdirs0 = calc_movable_dirs e.W e.H e.field 0 ∧
  e.mdirs1 = calc_movable_dirs e.W e.H e.field 1

instance (e : Othello) : Decidable (WF e) := by
  unfold WF; infer_instance

/-- States reachable from `call_reset` through `call_step`. -/
inductive Reachable (W H : Nat) : Othello → Prop
  | reset : Reachable W H (call_reset W H)
  | step (e : Othello) (a : Nat) :
      Reachable W H e → Reachable W H (call_step e a).1

/-! ## The rule-based search agent (`Cpu`) -/

/-- The flattened 8×8 positional weight table `evals8x8`. -/
def evals8x8 : List Int :=
  [30, -12, 0, -1, -1, 0, -12, 30,
   -12, -15, -3, -3, -3, -3, -15, -12,
   0, -3, 0, -1, -1, 0, -3, 0,
   -1, -3, -1, -1, -1, -1, -3, -1,
   -1, -3, -1, -1, -1, -1, -3, -1,
   0, -3, 0, -1, -1, 0, -3, 0,
   -12, -15, -3, -3, -3, -3, -15, -12,
   30, -12, 0, -1, -1, 0, -12, 30]

/-- The flattened 6×6 positional weight table `evals6x6`. -/
def evals6x6 : List Int :=
  [30, -12, 0, 0, -12, 30,
   -12, -15, -3, -3, -15, -12,
   0, -3, 0, 0, -3, 0,
   0, -3, 0, 0, -3, 0,
   -12, -15, -3, -3, -15, -12,
   30, -12, 0, 0, -12, 30]

/-- `np.sum(w * f)` for same-length vectors. -/
def dotEval (w f : List Int) : Int := (List.zipWith (· * ·) w f).sum

/-- The size dispatch of the heuristic branch of `_negamax`
(`env.W == 8` / `env.W == 6` / constant `0`). -/
def heuristic (e : Othello) : Int :=
  if e.W = 8 then dotEval evals8x8 e.field
  else if e.W = 6 then dotEval evals6x6 e.field
  else 0

/-- `np.max` of a score list.  The source only applies it to the non-empty
score vectors returned by `_negamax`; the `[]` value is junk. -/
def listMax (l : List Int) : Int :=
  match l with
  | [] => -999
  | h :: t => t.foldl max h

/-- The transposition cache `Cpu.cache`, keyed by the board cell vector
(the source key `str(env.field)` distinguishes exactly the distinct cell
vectors arising in a search). -/
abbrev Cache := List (List Int × List Int)

/-- The loop body of `_negamax` for one valid action `a`: simulate the
step from the node state `e` (the source restores the snapshot before
each sibling, so every sibling starts from `e`) and score it as a
terminal, as a heuristic leaf past `max_depth`, or through the recursive
evaluator `recur` with the negamax sign flip on mover alternation. -/
def negamaxStep (md depth : Nat) (e : Othello)
    (recur : Othello → Cache → List Int × Cache)
    (acc : List Int × Cache) (a : Nat) : List Int × Cache :=
  let out := call_step e a
  if out.2.2.2.1 then
    (acc.1.set a
      ((if e.player_index = 0 then out.2.1 else out.2.2.1) * 500), acc.2)
  else if md < depth then
    (acc.1.set a
      (if e.player_index ≠ 0 then -(heuristic out.1) else heuristic out.1),
     acc.2)
  else
    (acc.1.set a
      (if e.player_index ≠ (out.1).player_index
       then -(listMax (recur out.1 acc.2).1)
       else listMax (recur out.1 acc.2).1),
     (recur out.1 acc.2).2)

/-- `_negamax(env, depth)` for a fixed `max_depth := md`, with the cache
threaded explicitly.  `fuel` only bounds the recursion: a node at depth
`depth` recurses only when `depth ≤ md`, so any node of a search started
with `fuel ≥ md + 2` at depth `0` has positive fuel and the fuel-`0`
branch is unreachable (its value is junk). -/
def negamax (md : Nat) : Nat → Othello → Nat → Cache → List Int × Cache
  | 0, e, _, cache => (List.replicate (e.W * e.H) (-999), cache)
  | fuel + 1, e, depth, cache =>
    match List.lookup e.field cache with
    | some v => (v, cache)
    | none =>
      let res := (get_valid_actions e e.player_index).foldl
        (negamaxStep md depth e
          (fun e2 c2 => negamax md fuel e2 (depth + 1) c2))
        (List.replicate (e.W * e.H) (-999), cache)
      (res.1, (e.field, res.1) :: res.2)

/-- One leaf evaluation of a cut node (a node at `depth > max_depth`):
the terminal score when simulating `a` ends the game, else the signed
heuristic of the board one step from the node. -/
def leafVal (e : Othello) (a : Nat) : Int :=
  let out := call_step e a
  if out.2.2.2.1 then
    (if e.player_index = 0 then out.2.1 else out.2.2.1) * 500
  else
    (if e.player_index ≠ 0 then -(heuristic out.1) else heuristic out.1)

/-- The score vector a node computes when every branch is a leaf (every
child is terminal, or the node sits beyond `max_depth`): the per-action
one-level evaluation.  This is the value `_negamax` returns at a cut
node (up to caching). -/
def leafVec (e : Othello) : List Int :=
  (get_valid_actions e e.player_index).foldl
    (fun sc a => sc.set a (leafVal e a))
    (List.replicate (e.W * e.H) (-999))

/-- The root score vector computed by `call_policy` on a fresh cache:
`_negamax` on (a copy of) the environment at depth `0`.  Fuel
`md + 2` strictly dominates the recursion depth of the search. -/
def policyScores (md : Nat) (e : Othello) : List Int :=
  (negamax md (md + 2) e 0 []).1

/-- The argmax set `np.where(scores == scores.max())[0]` from which
`call_policy` draws uniformly at random. -/
def policyArgmax (md : Nat) (e : Othello) : List Nat :=
  (List.range (e.W * e.H)).filter
    (fun i => (policyScores md e).getD i (-999) == listMax (policyScores md e))


/-! ## Unfolding `call_step`, and the branch claims C2, C3, C4, C9 -/

/-- Definitional unfolding of `call_step` (the `action` attribute does not
influence any computation, so the initial `self.action = action` write
commutes past every read). -/
lemma call_step_def (e : Othello) (a : Nat) :
    call_step e a =
      (if ((mdirs e e.player_index).getD a []).isEmpty then
        (if e.player_index = 0 then ({ e with action := a }, -1, 0, true, none)
         else ({ e with action := a }, 0, -1, true, none))
      else
        (if put_num (step_move { e with action := a } a)
              (enemy_player (step_move { e with action := a } a)) = 0 ∧
            put_num (step_move { e with action := a } a)
              (my_player (step_move { e with action := a } a)) = 0 then
           if countColor (step_move { e with action := a } a).field (-1) <
               countColor (step_move { e with action := a } a).field 1 then
             (step_move { e with action := a } a, 1, -1, true,
              some (countColor (step_move { e with action := a } a).field 1,
                    countColor (step_move { e with action := a } a).field (-1)))
           else if countColor (step_move { e with action := a } a).field 1 <
               countColor (step_move { e with action := a } a).field (-1) then
             (step_move { e with action := a } a, -1, 1, true,
              some (countColor (step_move { e with action := a } a).field 1,
                    countColor (step_move { e with action := a } a).field (-1)))
           else
             (step_move { e with action := a } a, 0, 0, true,
              some (countColor (step_move { e with action := a } a).field 1,
                    countColor (step_move { e with action := a } a).field (-1)))
         else if put_num (step_move { e with action := a } a)
              (enemy_player (step_move { e with action := a } a)) = 0 then
           (step_move { e with action := a } a, 0, 0, false, none)
         else
           ({ step_move { e with action := a } a with
              player_index := enemy_player (step_move { e with action := a } a) },
            0, 0, false, none))) := rfl

lemma isEmpty_true_of_eq_nil {l : List Nat} (h : l = []) :
    l.isEmpty = true := by rw [h]; rfl

lemma isEmpty_false_of_ne_nil {l : List Nat} (h : l ≠ []) :
    ¬(l.isEmpty = true) := by
  cases l with
  | nil => exact absurd rfl h
  | cons x t => simp [List.isEmpty]

/-- C3 (claims file): an action whose movable-direction set for the current
mover is empty immediately ends the episode, with reward `(-1, 0)` when
the mover is player `0` and `(0, -1)` when the mover is player `1`,
regardless of the rest of the board state. -/
theorem call_step_illegal_reward (e : Othello) (a : Nat)
    (h : (mdirs e e.player_index).getD a [] = []) :
    call_step e a =
      ({ e with action := a },
       (if e.player_index = 0 then -1 else 0),
       (if e.player_index = 0 then 0 else -1), true, none) := by
  rw [call_step_def, if_pos (isEmpty_true_of_eq_nil h)]
  by_cases hp : e.player_index = 0 <;> simp [hp]

theorem call_step_illegal_reward_witness :
    call_step (call_reset 4 4) 0 =
      ({ call_reset 4 4 with action := 0 }, -1, 0, true, none) := by
  have h := call_step_illegal_reward (call_reset 4 4) 0 (by decide)
  rw [h]; decide

/-- C9 (claims file): the illegal-selection path is atomic: it reports the
episode done while leaving the board cells, the mover index and both
cached movable-direction maps exactly as they were before the call. -/
theorem call_step_illegal_atomic (e : Othello) (a : Nat)
    (h : (mdirs e e.player_index).getD a [] = []) :
    (call_step e a).1.field = e.field ∧
    (call_step e a).1.player_index = e.player_index ∧
    (call_step e a).1.mdirs0 = e.mdirs0 ∧
    (call_step e a).1.mdirs1 = e.mdirs1 ∧
    (call_step e a).2.2.2.1 = true := by
  rw [call_step_def, if_pos (isEmpty_true_of_eq_nil h)]
  by_cases hp : e.player_index = 0 <;> simp [hp]

theorem call_step_illegal_atomic_witness :
    (call_step (call_reset 6 6) 1).1.field = (call_reset 6 6).field ∧
    (call_step (call_reset 6 6) 1).1.player_index = 0 ∧
    (call_step (call_reset 6 6) 1).1.mdirs0 = (call_reset 6 6).mdirs0 ∧
    (call_step (call_reset 6 6) 1).1.mdirs1 = (call_reset 6 6).mdirs1 ∧
    (call_step (call_reset 6 6) 1).2.2.2.1 = true := by
  have h := call_step_illegal_atomic (call_reset 6 6) 1 (by decide)
  exact ⟨h.1, h.2.1, h.2.2.1, h.2.2.2.1, h.2.2.2.2⟩

/-- C2 (claims file): after a legal move, if neither player has a legal
cell, the episode ends with reward `+1` to the strict stone-count
majority holder and `-1` to the other, `(0, 0)` on an exact tie, and the
info payload carries both stone counts. -/
theorem call_step_both_stuck (e : Othello) (a : Nat) (e2 : Othello)
    (hleg : (mdirs e e.player_index).getD a [] ≠ [])
    (he2 : e2 = step_move { e with action := a } a)
    (h1 : put_num e2 (enemy_player e2) = 0)
    (h2 : put_num e2 (my_player e2) = 0) :
    call_step e a =
      (e2,
       (if countColor e2.field (-1) < countColor e2.field 1 then 1
        else if countColor e2.field 1 < countColor e2.field (-1) then -1
        else 0),
       (if countColor e2.field (-1) < countColor e2.field 1 then -1
        else if countColor e2.field 1 < countColor e2.field (-1) then 1
        else 0),
       true,
       some (countColor e2.field 1, countColor e2.field (-1))) := by
  rw [call_step_def, if_neg (isEmpty_false_of_ne_nil hleg), ← he2,
    if_pos ⟨h1, h2⟩]
  by_cases hlt : countColor e2.field (-1) < countColor e2.field 1
  · simp [hlt]
  · simp only [if_neg hlt]
    by_cases hgt : countColor e2.field 1 < countColor e2.field (-1) <;>
      simp [hgt]

theorem call_step_both_stuck_witness :
    call_step (mkState 4 1 [0, -1, 1, 0] 0) 0 =
      (step_move { mkState 4 1 [0, -1, 1, 0] 0 with action := 0 } 0,
       1, -1, true, some (3, 0)) := by
  have h := call_step_both_stuck (mkState 4 1 [0, -1, 1, 0] 0) 0
    (step_move { mkState 4 1 [0, -1, 1, 0] 0 with action := 0 } 0)
    (by decide) rfl (by decide) (by decide)
  rw [h]; decide

/-- C4 (claims file): after a legal move, if the opponent has no legal cell
while the mover still has one, the turn does not advance: `player_index`
is unchanged, the reward is `(0, 0)` and the episode continues. -/
theorem call_step_pass_keeps_mover (e : Othello) (a : Nat) (e2 : Othello)
    (hleg : (mdirs e e.player_index).getD a [] ≠ [])
    (he2 : e2 = step_move { e with action := a } a)
    (h1 : put_num e2 (enemy_player e2) = 0)
    (h2 : put_num e2 (my_player e2) ≠ 0) :
    call_step e a = (e2, 0, 0, false, none) ∧
    e2.player_index = e.player_index := by
  constructor
  · rw [call_step_def, if_neg (isEmpty_false_of_ne_nil hleg), ← he2,
      if_neg (fun hc => h2 hc.2), if_pos h1]
  · rw [he2]; rfl

theorem call_step_pass_keeps_mover_witness :
    call_step (mkState 6 1 [0, -1, 1, 0, -1, 1] 0) 0 =
      (step_move { mkState 6 1 [0, -1, 1, 0, -1, 1] 0 with action := 0 } 0,
       0, 0, false, none) ∧
    (step_move { mkState 6 1 [0, -1, 1, 0, -1, 1] 0 with
       action := 0 } 0).player_index = 0 := by
  have h := call_step_pass_keeps_mover (mkState 6 1 [0, -1, 1, 0, -1, 1] 0) 0
    (step_move { mkState 6 1 [0, -1, 1, 0, -1, 1] 0 with action := 0 } 0)
    (by decide) rfl (by decide) (by decide)
  exact ⟨h.1, h.2⟩

/-! ## Flat-index arithmetic and cell counting -/

lemma getD_set_self (l : List Int) (i : Nat) (v : Int) (h : i < l.length) :
    (l.set i v).getD i 0 = v := by
  simp [List.getD_eq_getElem?_getD, List.getElem?_set_eq_of_lt v h]

lemma getD_set_ne (l : List Int) {i j : Nat} (v : Int) (h : i ≠ j) :
    (l.set i v).getD j 0 = l.getD j 0 := by
  simp [List.getD_eq_getElem?_getD, List.getElem?_set_ne h]

lemma getD_replicate_zero (n j : Nat) :
    (List.replicate n (0 : Int)).getD j 0 = 0 := by
  simp [List.getD_eq_getElem?_getD, List.getElem?_replicate]
  split <;> rfl

/-- Row-major flat indices of in-bounds coordinates stay in range. -/
lemma pos_lt {W H x y : Nat} (hx : x < W) (hy : y < H) : W * y + x < W * H :=
  calc W * y + x < W * y + W := by omega
  _ = W * (y + 1) := by ring
  _ ≤ W * H := Nat.mul_le_mul_left W hy

/-- Row-major flat encoding is injective on in-bounds coordinates. -/
lemma pos_inj {W x1 y1 x2 y2 : Nat} (h1 : x1 < W) (h2 : x2 < W) :
    W * y1 + x1 = W * y2 + x2 ↔ (x1 = x2 ∧ y1 = y2) := by
  constructor
  · intro h
    have hx : x1 = x2 := by
      have hm := congrArg (fun t => t % W) h
      simpa [Nat.mul_add_mod, Nat.mod_eq_of_lt h1, Nat.mod_eq_of_lt h2] using hm
    refine ⟨hx, ?_⟩
    subst hx
    have hW : 0 < W := by omega
    have : W * y1 = W * y2 := by omega
    exact Nat.eq_of_mul_eq_mul_left hW this
  · rintro ⟨rfl, rfl⟩; rfl

lemma countNZ_cons (x : Int) (t : List Int) :
    countNZ (x :: t) = (if x = 0 then 0 else 1) + countNZ t := by
  by_cases hx : x = 0 <;>
    simp [countNZ, List.filter_cons, hx, Nat.add_comm]

lemma countNZ_set_zero : ∀ (l : List Int) (i : Nat) (v : Int),
    i < l.length → l.getD i 0 = 0 → v ≠ 0 →
    countNZ (l.set i v) = countNZ l + 1
  | [], i, v, hi, _, _ => by simp at hi
  | x :: t, 0, v, _, h0, hv => by
      simp only [List.getD] at h0
      simp only [List.set, countNZ_cons]
      simp at h0
      rw [h0]
      simp [hv, Nat.add_comm]
  | x :: t, i + 1, v, hi, h0, hv => by
      simp only [List.set, countNZ_cons]
      rw [countNZ_set_zero t i v (by simpa using hi) (by simpa using h0) hv]
      omega

lemma countNZ_set_nonzero : ∀ (l : List Int) (i : Nat) (v : Int),
    l.getD i 0 ≠ 0 → v ≠ 0 →
    countNZ (l.set i v) = countNZ l
  | [], i, v, _, _ => by simp
  | x :: t, 0, v, h0, hv => by
      simp only [List.getD] at h0
      simp at h0
      simp only [List.set, countNZ_cons]
      simp [h0, hv]
  | x :: t, i + 1, v, h0, hv => by
      simp only [List.set, countNZ_cons]
      rw [countNZ_set_nonzero t i v (by simpa using h0) hv]

lemma countNZ_replicate_zero (n : Nat) :
    countNZ (List.replicate n (0 : Int)) = 0 := by
  induction n with
  | zero => rfl
  | succ k ih => simpa [List.replicate, countNZ_cons] using ih

/-- Reading in-bounds natural coordinates through `getf` is a flat read. -/
lemma getf_natCoords (W H : Nat) (f : List Int) (x y : Nat)
    (hx : x < W) (hy : y < H) :
    getf W H f (x : Int) (y : Int) = f.getD (W * y + x) 0 := by
  unfold getf
  rw [if_neg (by omega), if_neg (by omega), if_neg (by omega),
    if_neg (by omega)]
  simp

/-- C8 (claims file): for even board sides at least `2`, `call_reset`
yields player `0` to move, exactly `4` stones in the alternating diagonal
pattern on the central 2×2 block (`+1` on one diagonal, `-1` on the
other), every other cell empty, and the movable-direction maps of both
players computed against that board. -/
theorem call_reset_opening (W H : Nat) (hW : 2 ≤ W) (hH : 2 ≤ H)
    (hWe : W % 2 = 0) (hHe : H % 2 = 0) :
    (call_reset W H).player_index = 0 ∧
    countNZ (call_reset W H).field = 4 ∧
    getf W H (call_reset W H).field ((W / 2 - 1 : Nat) : Int)
      ((H / 2 - 1 : Nat) : Int) = 1 ∧
    getf W H (call_reset W H).field ((W / 2 : Nat) : Int)
      ((H / 2 : Nat) : Int) = 1 ∧
    getf W H (call_reset W H).field ((W / 2 : Nat) : Int)
      ((H / 2 - 1 : Nat) : Int) = -1 ∧
    getf W H (call_reset W H).field ((W / 2 - 1 : Nat) : Int)
      ((H / 2 : Nat) : Int) = -1 ∧
    (∀ x y : Nat, x < W → y < H →
      ¬((x = W / 2 - 1 ∨ x = W / 2) ∧ (y = H / 2 - 1 ∨ y = H / 2)) →
      getf W H (call_reset W H).field (x : Int) (y : Int) = 0) ∧
    (call_reset W H).mdirs0 = calc_movable_dirs W H (call_reset W H).field 0 ∧
    (call_reset W H).mdirs1 = calc_movable_dirs W H (call_reset W H).field 1 := by
  have hcx1 : W / 2 - 1 < W := by omega
  have hcx2 : W / 2 < W := by omega
  have hcy1 : H / 2 - 1 < H := by omega
  have hcy2 : H / 2 < H := by omega
  have hf : (call_reset W H).field =
      ((((List.replicate (W * H) 0).set (W * (H / 2 - 1) + (W / 2 - 1)) 1).set
          (W * (H / 2 - 1 + 1) + (W / 2 - 1 + 1)) 1).set
          (W * (H / 2 - 1) + (W / 2 - 1 + 1)) (-1)).set
          (W * (H / 2 - 1 + 1) + (W / 2 - 1)) (-1) := rfl
  have hplusW : W / 2 - 1 + 1 = W / 2 := by omega
  have hplusH : H / 2 - 1 + 1 = H / 2 := by omega
  rw [hplusW, hplusH] at hf
  have hi1 : W * (H / 2 - 1) + (W / 2 - 1) < W * H := pos_lt hcx1 hcy1
  have hi2 : W * (H / 2) + (W / 2) < W * H := pos_lt hcx2 hcy2
  have hi3 : W * (H / 2 - 1) + (W / 2) < W * H := pos_lt hcx2 hcy1
  have hi4 : W * (H / 2) + (W / 2 - 1) < W * H := pos_lt hcx1 hcy2
  have hne12 : W * (H / 2 - 1) + (W / 2 - 1) ≠ W * (H / 2) + (W / 2) := by
    intro h; rcases (pos_inj hcx1 hcx2).1 h with ⟨h1, h2⟩; omega
  have hne13 : W * (H / 2 - 1) + (W / 2 - 1) ≠ W * (H / 2 - 1) + (W / 2) := by
    intro h; rcases (pos_inj hcx1 hcx2).1 h with ⟨h1, h2⟩; omega
  have hne14 : W * (H / 2 - 1) + (W / 2 - 1) ≠ W * (H / 2) + (W / 2 - 1) := by
    intro h; rcases (pos_inj hcx1 hcx1).1 h with ⟨h1, h2⟩; omega
  have hne23 : W * (H / 2) + (W / 2) ≠ W * (H / 2 - 1) + (W / 2) := by
    intro h; rcases (pos_inj hcx2 hcx2).1 h with ⟨h1, h2⟩; omega
  have hne24 : W * (H / 2) + (W / 2) ≠ W * (H / 2) + (W / 2 - 1) := by
    intro h; rcases (pos_inj hcx2 hcx1).1 h with ⟨h1, h2⟩; omega
  have hne34 : W * (H / 2 - 1) + (W / 2) ≠ W * (H / 2) + (W / 2 - 1) := by
    intro h; rcases (pos_inj hcx2 hcx1).1 h with ⟨h1, h2⟩; omega
  have hlen0 : (List.replicate (W * H) (0 : Int)).length = W * H :=
    List.length_replicate (W * H) 0
  have hL1 : ((List.replicate (W * H) (0 : Int)).set
      (W * (H / 2 - 1) + (W / 2 - 1)) 1).length = W * H := by
    simp [hlen0]
  have hL2 : (((List.replicate (W * H) (0 : Int)).set
      (W * (H / 2 - 1) + (W / 2 - 1)) 1).set
      (W * (H / 2) + (W / 2)) 1).length = W * H := by
    simp [hlen0]
  have hL3 : ((((List.replicate (W * H) (0 : Int)).set
      (W * (H / 2 - 1) + (W / 2 - 1)) 1).set
      (W * (H / 2) + (W / 2)) 1).set
      (W * (H / 2 - 1) + (W / 2)) (-1)).length = W * H := by
    simp [hlen0]
  have hd1 : (((((List.replicate (W * H) (0 : Int)).set
      (W * (H / 2 - 1) + (W / 2 - 1)) 1).set
      (W * (H / 2) + (W / 2)) 1).set
      (W * (H / 2 - 1) + (W / 2)) (-1)).set
      (W * (H / 2) + (W / 2 - 1)) (-1)).getD
      (W * (H / 2 - 1) + (W / 2 - 1)) 0 = 1 := by
    rw [getD_set_ne _ _ (Ne.symm hne14), getD_set_ne _ _ (Ne.symm hne13),
      getD_set_ne _ _ (Ne.symm hne12),
      getD_set_self _ _ _ (by rw [hlen0]; exact hi1)]
  have hd2 : (((((List.replicate (W * H) (0 : Int)).set
      (W * (H / 2 - 1) + (W / 2 - 1)) 1).set
      (W * (H / 2) + (W / 2)) 1).set
      (W * (H / 2 - 1) + (W / 2)) (-1)).set
      (W * (H / 2) + (W / 2 - 1)) (-1)).getD
      (W * (H / 2) + (W / 2)) 0 = 1 := by
    rw [getD_set_ne _ _ (Ne.symm hne24), getD_set_ne _ _ (Ne.symm hne23),
      getD_set_self _ _ _ (by rw [hL1]; exact hi2)]
  have hd3 : (((((List.replicate (W * H) (0 : Int)).set
      (W * (H / 2 - 1) + (W / 2 - 1)) 1).set
      (W * (H / 2) + (W / 2)) 1).set
      (W * (H / 2 - 1) + (W / 2)) (-1)).set
      (W * (H / 2) + (W / 2 - 1)) (-1)).getD
      (W * (H / 2 - 1) + (W / 2)) 0 = -1 := by
    rw [getD_set_ne _ _ (Ne.symm hne34),
      getD_set_self _ _ _ (by rw [hL2]; exact hi3)]
  have hd4 : (((((List.replicate (W * H) (0 : Int)).set
      (W * (H / 2 - 1) + (W / 2 - 1)) 1).set
      (W * (H / 2) + (W / 2)) 1).set
      (W * (H / 2 - 1) + (W / 2)) (-1)).set
      (W * (H / 2) + (W / 2 - 1)) (-1)).getD
      (W * (H / 2) + (W / 2 - 1)) 0 = -1 := by
    rw [getD_set_self _ _ _ (by rw [hL3]; exact hi4)]
  refine ⟨rfl, ?_, ?_, ?_, ?_, ?_, ?_, rfl, rfl⟩
  · rw [hf]
    rw [countNZ_set_zero _ _ _ (by rw [hL3]; exact hi4)
        (by rw [getD_set_ne _ _ hne34, getD_set_ne _ _ hne24,
                getD_set_ne _ _ hne14, getD_replicate_zero]) (by norm_num)]
    rw [countNZ_set_zero _ _ _ (by rw [hL2]; exact hi3)
        (by rw [getD_set_ne _ _ hne23, getD_set_ne _ _ hne13,
                getD_replicate_zero]) (by norm_num)]
    rw [countNZ_set_zero _ _ _ (by rw [hL1]; exact hi2)
        (by rw [getD_set_ne _ _ hne12, getD_replicate_zero]) (by norm_num)]
    rw [countNZ_set_zero _ _ _ (by rw [hlen0]; exact hi1)
        (getD_replicate_zero _ _) (by norm_num)]
    rw [countNZ_replicate_zero]
  · rw [getf_natCoords W H _ _ _ hcx1 hcy1, hf]; exact hd1
  · rw [getf_natCoords W H _ _ _ hcx2 hcy2, hf]; exact hd2
  · rw [getf_natCoords W H _ _ _ hcx2 hcy1, hf]; exact hd3
  · rw [getf_natCoords W H _ _ _ hcx1 hcy2, hf]; exact hd4
  · intro x y hx hy hnc
    rw [getf_natCoords W H _ _ _ hx hy, hf]
    have hj1 : W * (H / 2 - 1) + (W / 2 - 1) ≠ W * y + x := by
      intro h; rcases (pos_inj hcx1 hx).1 h with ⟨h1, h2⟩
      exact hnc ⟨Or.inl h1.symm, Or.inl h2.symm⟩
    have hj2 : W * (H / 2) + (W / 2) ≠ W * y + x := by
      intro h; rcases (pos_inj hcx2 hx).1 h with ⟨h1, h2⟩
      exact hnc ⟨Or.inr h1.symm, Or.inr h2.symm⟩
    have hj3 : W * (H / 2 - 1) + (W / 2) ≠ W * y + x := by
      intro h; rcases (pos_inj hcx2 hx).1 h with ⟨h1, h2⟩
      exact hnc ⟨Or.inr h1.symm, Or.inl h2.symm⟩
    have hj4 : W * (H / 2) + (W / 2 - 1) ≠ W * y + x := by
      intro h; rcases (pos_inj hcx1 hx).1 h with ⟨h1, h2⟩
      exact hnc ⟨Or.inl h1.symm, Or.inr h2.symm⟩
    rw [getD_set_ne _ _ hj4, getD_set_ne _ _ hj3, getD_set_ne _ _ hj2,
      getD_set_ne _ _ hj1, getD_replicate_zero]

theorem call_reset_opening_witness :
    (call_reset 4 6).player_index = 0 ∧ countNZ (call_reset 4 6).field = 4 := by
  have h := call_reset_opening 4 6 (by norm_num) (by norm_num)
    (by norm_num) (by norm_num)
  exact ⟨h.1, h.2.1⟩

/-! ## C1: characterisation of the movable-direction scan -/

lemma getf_inbounds_of_ne_sentinel {W H : Nat} {f : List Int} {x y c : Int}
    (h : getf W H f x y = c) (h9 : c ≠ 9) :
    0 ≤ x ∧ x < W ∧ 0 ≤ y ∧ y < H := by
  unfold getf at h
  split_ifs at h with h1 h2 h3 h4
  · exact absurd h.symm h9
  · exact absurd h.symm h9
  · exact absurd h.symm h9
  · exact absurd h.symm h9
  · exact ⟨by omega, by omega, by omega, by omega⟩

/-- The value returned by the enemy-skipping scan is `my` exactly when the
ray from the start position crosses a (possibly empty) run of enemy
cells and then hits a `my` cell, all within the fuel. -/
lemma scanColor_eq_iff (W H : Nat) (f : List Int) (my enemy dx dy : Int)
    (hne : my ≠ enemy) (hmy9 : my ≠ 9) :
    ∀ (F : Nat) (u v : Int),
    scanColor W H f enemy dx dy F u v = my ↔
    ∃ j : Nat, j < F ∧
      (∀ i : Nat, i < j →
        getf W H f (u + (i : Int) * dx) (v + (i : Int) * dy) = enemy) ∧
      getf W H f (u + (j : Int) * dx) (v + (j : Int) * dy) = my := by
  intro F
  induction F with
  | zero =>
      intro u v
      simp only [scanColor]
      constructor
      · intro h; exact absurd h.symm hmy9
      · rintro ⟨j, hj, _⟩; omega
  | succ F ih =>
      intro u v
      simp only [scanColor]
      by_cases h : getf W H f u v = enemy
      · rw [if_pos h, ih (u + dx) (v + dy)]
        constructor
        · rintro ⟨j, hj, hall, hmyj⟩
          refine ⟨j + 1, by omega, ?_, ?_⟩
          · intro i hi
            match i with
            | 0 => simpa using h
            | Nat.succ i' =>
                have := hall i' (by omega)
                rw [show (u + dx + (i' : Int) * dx) =
                  u + ((i' + 1 : Nat) : Int) * dx by push_cast; ring,
                  show (v + dy + (i' : Int) * dy) =
                  v + ((i' + 1 : Nat) : Int) * dy by push_cast; ring] at this
                exact this
          · rw [show (u + ((j + 1 : Nat) : Int) * dx) =
              u + dx + (j : Int) * dx by push_cast; ring,
              show (v + ((j + 1 : Nat) : Int) * dy) =
              v + dy + (j : Int) * dy by push_cast; ring]
            exact hmyj
        · rintro ⟨j, hj, hall, hmyj⟩
          match j with
          | 0 =>
              simp only [Nat.cast_zero, zero_mul, add_zero] at hmyj
              exact absurd (hmyj.symm.trans h) hne
          | Nat.succ j' =>
              refine ⟨j', by omega, ?_, ?_⟩
              · intro i hi
                have := hall (i + 1) (by omega)
                rw [show (u + ((i + 1 : Nat) : Int) * dx) =
                  u + dx + (i : Int) * dx by push_cast; ring,
                  show (v + ((i + 1 : Nat) : Int) * dy) =
                  v + dy + (i : Int) * dy by push_cast; ring] at this
                exact this
              · rw [show (u + ((j' + 1 : Nat) : Int) * dx) =
                  u + dx + (j' : Int) * dx by push_cast; ring,
                  show (v + ((j' + 1 : Nat) : Int) * dy) =
                  v + dy + (j' : Int) * dy by push_cast; ring] at hmyj
                exact hmyj
      · rw [if_neg h]
        constructor
        · intro hm
          exact ⟨0, by omega, by intro i hi; omega, by simpa using hm⟩
        · rintro ⟨j, hj, hall, hmyj⟩
          match j with
          | 0 => simpa using hmyj
          | Nat.succ j' =>
              have := hall 0 (by omega)
              simp only [Nat.cast_zero, zero_mul, add_zero] at this
              exact absurd this h

/-- The specification's outflank condition for one direction at an empty
cell `(x, y)`: some `k ≥ 1` consecutive cells in the direction hold the
opponent's colour and the next cell holds the mover's own colour. -/
def SpecDir (W H : Nat) (f : List Int) (my enemy x y dx dy : Int) : Prop :=
  ∃ k : Nat, 1 ≤ k ∧
    (∀ i : Nat, 1 ≤ i → i ≤ k →
      getf W H f (x + (i : Int) * dx) (y + (i : Int) * dy) = enemy) ∧
    getf W H f (x + ((k : Int) + 1) * dx) (y + ((k : Int) + 1) * dy) = my

lemma dirTriples_third_inj :
    ∀ t1 ∈ dirTriples, ∀ t2 ∈ dirTriples, t1.2.2 = t2.2.2 → t1 = t2 := by
  decide

lemma dirTriples_dir_shape :
    ∀ t ∈ dirTriples, t.1 = 1 ∨ t.1 = -1 ∨ t.2.1 = 1 ∨ t.2.1 = -1 := by
  decide

/-- The source's direction test agrees with the specification's outflank
condition whenever the scanned-from cell is in bounds and the two colours
are the distinct stone colours. -/
lemma dirOk_iff_SpecDir (W H : Nat) (f : List Int) (my enemy x y dx dy : Int)
    (hne : my ≠ enemy) (hmy9 : my ≠ 9) (hen9 : enemy ≠ 9)
    (hx0 : 0 ≤ x) (hxW : x < W) (hy0 : 0 ≤ y) (hyH : y < H)
    (hd : dx = 1 ∨ dx = -1 ∨ dy = 1 ∨ dy = -1) :
    dirOk W H f my enemy x y dx dy = true ↔
      SpecDir W H f my enemy x y dx dy := by
  rw [dirOk, Bool.and_eq_true, decide_eq_true_eq, decide_eq_true_eq,
    scanColor_eq_iff W H f my enemy dx dy hne hmy9 (W + H)
      (x + 2 * dx) (y + 2 * dy)]
  constructor
  · rintro ⟨hadj, j, hj, hall, hmyj⟩
    refine ⟨j + 1, by omega, ?_, ?_⟩
    · intro i hi1 hik
      match i with
      | 0 => omega
      | 1 => simpa using hadj
      | Nat.succ (Nat.succ i') =>
          have := hall i' (by omega)
          rw [show (x + 2 * dx + (i' : Int) * dx) =
            x + ((i' + 2 : Nat) : Int) * dx by push_cast; ring,
            show (y + 2 * dy + (i' : Int) * dy) =
            y + ((i' + 2 : Nat) : Int) * dy by push_cast; ring] at this
          exact this
    · rw [show (x + (((j + 1 : Nat) : Int) + 1) * dx) =
        x + 2 * dx + (j : Int) * dx by push_cast; ring,
        show (y + (((j + 1 : Nat) : Int) + 1) * dy) =
        y + 2 * dy + (j : Int) * dy by push_cast; ring]
      exact hmyj
  · rintro ⟨k, hk1, hall, hmyk⟩
    have hadj : getf W H f (x + dx) (y + dy) = enemy := by
      have := hall 1 (by omega) hk1
      simpa using this
    refine ⟨hadj, k - 1, ?_, ?_, ?_⟩
    · -- the run of enemy cells is in bounds, which bounds its length
      have henemy := hall k (by omega) (le_refl k)
      have hb := getf_inbounds_of_ne_sentinel henemy hen9
      have hkW : (k : Int) * dx < W - x ∧ -(x + 1) < (k : Int) * dx := by
        constructor <;> [nlinarith [hb.2.1]; nlinarith [hb.1]]
      rcases hd with h | h | h | h
      · rw [h, mul_one] at hkW
        have : (k : Int) < W := by omega
        have : k < W := by exact_mod_cast this
        omega
      · rw [h] at hkW
        have : (k : Int) < x + 1 := by omega
        have : (k : Int) < W := by omega
        have : k < W := by exact_mod_cast this
        omega
      · have hkH : (k : Int) * dy < H - y ∧ -(y + 1) < (k : Int) * dy := by
          constructor <;> [nlinarith [hb.2.2.2]; nlinarith [hb.2.2.1]]
        rw [h, mul_one] at hkH
        have : (k : Int) < H := by omega
        have : k < H := by exact_mod_cast this
        omega
      · have hkH : (k : Int) * dy < H - y ∧ -(y + 1) < (k : Int) * dy := by
          constructor <;> [nlinarith [hb.2.2.2]; nlinarith [hb.2.2.1]]
        rw [h] at hkH
        have : (k : Int) < y + 1 := by omega
        have : (k : Int) < H := by omega
        have : k < H := by exact_mod_cast this
        omega
    · intro i hi
      have := hall (i + 2) (by omega) (by omega)
      rw [show (x + ((i + 2 : Nat) : Int) * dx) =
        x + 2 * dx + (i : Int) * dx by push_cast; ring,
        show (y + ((i + 2 : Nat) : Int) * dy) =
        y + 2 * dy + (i : Int) * dy by push_cast; ring] at this
      exact this
    · rw [show (x + 2 * dx + ((k - 1 : Nat) : Int) * dx) =
        x + (((k - 1 : Nat) : Int) + 2) * dx by ring,
        show (y + 2 * dy + ((k - 1 : Nat) : Int) * dy) =
        y + (((k - 1 : Nat) : Int) + 2) * dy by ring,
        show (((k - 1 : Nat) : Int) + 2) = ((k : Int) + 1) by
          have : 1 ≤ k := hk1; push_cast [this]; ring]
      exact hmyk

lemma cellDirs_occupied {W H : Nat} {f : List Int} {my enemy x y : Int}
    (h : getf W H f x y ≠ 0) : cellDirs W H f my enemy x y = [] := by
  unfold cellDirs; rw [if_pos h]

lemma mem_cellDirs_iff {W H : Nat} {f : List Int} {my enemy x y : Int}
    (h0 : getf W H f x y = 0) {d : Nat} {dx dy : Int}
    (ht : (dx, dy, d) ∈ dirTriples) :
    d ∈ cellDirs W H f my enemy x y ↔
      dirOk W H f my enemy x y dx dy = true := by
  unfold cellDirs
  rw [if_neg (by simp [h0])]
  simp only [List.mem_map, List.mem_filter]
  constructor
  · rintro ⟨t, ⟨htm, hok⟩, htd⟩
    have := dirTriples_third_inj t htm (dx, dy, d) ht htd
    rw [this] at hok; exact hok
  · intro hok
    exact ⟨(dx, dy, d), ⟨ht, hok⟩, rfl⟩

lemma calc_movable_dirs_getD (W H : Nat) (f : List Int) (p a : Nat)
    (ha : a < W * H) :
    (calc_movable_dirs W H f p).getD a [] =
      cellDirs W H f (myColor p) (-(myColor p))
        ((a % W : Nat) : Int) ((a / W : Nat) : Int) := by
  unfold calc_movable_dirs
  rw [List.getD_eq_getElem?_getD, List.getElem?_map, List.getElem?_range ha]
  rfl

lemma mem_invalid_iff (e : Othello) (p a : Nat) (ha : a < e.H * e.W) :
    a ∈ get_invalid_actions e p ↔ ((mdirs e p).getD a []).isEmpty = true := by
  simp [get_invalid_actions, List.mem_filter, List.mem_range, ha]

lemma myColor_cases (p : Nat) : myColor p = 1 ∨ myColor p = -1 := by
  unfold myColor; split <;> simp

/-- C1 (claims file): `_calc_movable_dirs` gives every occupied cell the
empty direction list; an empty cell gets a direction exactly when the
adjacent cell holds the opponent colour and the ray continues through
opponent cells onto a cell of the mover's own colour; and a cell is a
legal placement (not in `get_invalid_actions`) iff its direction set is
non-empty. -/
theorem movable_dirs_characterization (e : Othello) (p a : Nat)
    (ha : a < e.W * e.H) (dx dy : Int) (d : Nat)
    (ht : (dx, dy, d) ∈ dirTriples) :
    (getf e.W e.H e.field ((a % e.W : Nat) : Int) ((a / e.W : Nat) : Int) ≠ 0 →
      (calc_movable_dirs e.W e.H e.field p).getD a [] = []) ∧
    (getf e.W e.H e.field ((a % e.W : Nat) : Int) ((a / e.W : Nat) : Int) = 0 →
      (d ∈ (calc_movable_dirs e.W e.H e.field p).getD a [] ↔
        SpecDir e.W e.H e.field (myColor p) (-(myColor p))
          ((a % e.W : Nat) : Int) ((a / e.W : Nat) : Int) dx dy)) ∧
    (a ∉ get_invalid_actions e p ↔ (mdirs e p).getD a [] ≠ []) := by
  have hW : 0 < e.W := by
    rcases Nat.eq_zero_or_pos e.W with h | h
    · rw [h] at ha; simp at ha
    · exact h
  refine ⟨?_, ?_, ?_⟩
  · intro h
    rw [calc_movable_dirs_getD e.W e.H e.field p a ha]
    exact cellDirs_occupied h
  · intro h0
    rw [calc_movable_dirs_getD e.W e.H e.field p a ha,
      mem_cellDirs_iff h0 ht]
    refine dirOk_iff_SpecDir e.W e.H e.field (myColor p) (-(myColor p))
      _ _ dx dy ?_ ?_ ?_ (by positivity) ?_ (by positivity) ?_ ?_
    · rcases myColor_cases p with h | h <;> rw [h] <;> norm_num
    · rcases myColor_cases p with h | h <;> rw [h] <;> norm_num
    · rcases myColor_cases p with h | h <;> rw [h] <;> norm_num
    · exact_mod_cast Nat.mod_lt a hW
    · exact_mod_cast Nat.div_lt_of_lt_mul ha
    · exact dirTriples_dir_shape (dx, dy, d) ht
  · have hmem := mem_invalid_iff e p a (by rw [Nat.mul_comm]; exact ha)
    constructor
    · intro hnm hnil
      exact hnm (hmem.mpr (isEmpty_true_of_eq_nil hnil))
    · intro hne hm
      exact isEmpty_false_of_ne_nil hne (hmem.mp hm)

theorem movable_dirs_characterization_witness :
    (0 ∉ get_invalid_actions (call_reset 4 4) 0 ↔
      (mdirs (call_reset 4 4) 0).getD 0 [] ≠ []) :=
  (movable_dirs_characterization (call_reset 4 4) 0 0 (by decide)
    (-1) 1 1 (by decide)).2.2

/-! ## C7: every legal move adds exactly one stone -/

lemma getf_eq_getD_of_inbounds {W H : Nat} {f : List Int} {x y : Int}
    (hx0 : 0 ≤ x) (hxW : x < W) (hy0 : 0 ≤ y) (hyH : y < H) :
    getf W H f x y = f.getD (W * y.toNat + x.toNat) 0 := by
  unfold getf
  rw [if_neg (by omega), if_neg (by omega), if_neg (by omega),
    if_neg (by omega)]

lemma inbounds_toNat_lt {W : Nat} {x : Int} (hx0 : 0 ≤ x) (hxW : x < W) :
    x.toNat < W := by omega

/-- Writing a cell leaves `getf` unchanged at every other coordinate. -/
lemma getf_set_of_ne {W H : Nat} (f : List Int) {x y : Int} (u v : Int)
    (w : Int) (hx0 : 0 ≤ x) (hxW : x < W) (hy0 : 0 ≤ y) (_hyH : y < H)
    (hne : ¬(u = x ∧ v = y)) :
    getf W H (f.set (W * y.toNat + x.toNat) w) u v = getf W H f u v := by
  by_cases hu : 0 ≤ u ∧ u < W ∧ 0 ≤ v ∧ v < H
  · rw [getf_eq_getD_of_inbounds hu.1 hu.2.1 hu.2.2.1 hu.2.2.2,
      getf_eq_getD_of_inbounds hu.1 hu.2.1 hu.2.2.1 hu.2.2.2]
    apply getD_set_ne
    intro hcode
    rcases (pos_inj (inbounds_toNat_lt hx0 hxW)
      (inbounds_toNat_lt hu.1 hu.2.1)).1 hcode with ⟨hxe, hye⟩
    exact hne ⟨by omega, by omega⟩
  · unfold getf
    push_neg at hu
    split_ifs with h1 h2 h3 h4 <;> try rfl
    omega

/-- Writing a cell makes `getf` read the written value there. -/
lemma getf_set_self_coords {W H : Nat} (f : List Int) {x y : Int} (w : Int)
    (hx0 : 0 ≤ x) (hxW : x < W) (hy0 : 0 ≤ y) (hyH : y < H)
    (hlen : f.length = W * H) :
    getf W H (f.set (W * y.toNat + x.toNat) w) x y = w := by
  rw [getf_eq_getD_of_inbounds hx0 hxW hy0 hyH]
  apply getD_set_self
  rw [hlen]
  exact pos_lt (inbounds_toNat_lt hx0 hxW) (inbounds_toNat_lt hy0 hyH)

/-- `scanColor` only reads the ray it scans. -/
lemma scanColor_congr {W H : Nat} {f g : List Int} {enemy dx dy : Int} :
    ∀ (F : Nat) (u v : Int),
    (∀ i : Nat, getf W H g (u + (i : Int) * dx) (v + (i : Int) * dy) =
      getf W H f (u + (i : Int) * dx) (v + (i : Int) * dy)) →
    scanColor W H g enemy dx dy F u v = scanColor W H f enemy dx dy F u v := by
  intro F
  induction F with
  | zero => intro u v _; rfl
  | succ F ih =>
      intro u v h
      have h0 := h 0
      simp only [Nat.cast_zero, zero_mul, add_zero] at h0
      simp only [scanColor, h0]
      by_cases he : getf W H f u v = enemy
      · rw [if_pos he, if_pos he]
        apply ih
        intro i
        have := h (i + 1)
        rw [show (u + ((i + 1 : Nat) : Int) * dx) =
          u + dx + (i : Int) * dx by push_cast; ring,
          show (v + ((i + 1 : Nat) : Int) * dy) =
          v + dy + (i : Int) * dy by push_cast; ring] at this
        exact this
      · rw [if_neg he, if_neg he]

lemma scanColor_mono_fuel {W H : Nat} {f : List Int} {my enemy dx dy : Int}
    (hne : my ≠ enemy) (hmy9 : my ≠ 9) {F F' : Nat} (hF : F ≤ F')
    {u v : Int} (h : scanColor W H f enemy dx dy F u v = my) :
    scanColor W H f enemy dx dy F' u v = my := by
  rw [scanColor_eq_iff W H f my enemy dx dy hne hmy9] at h ⊢
  obtain ⟨j, hj, hall, hmyj⟩ := h
  exact ⟨j, by omega, hall, hmyj⟩

/-- Relation between a board and the board after some enemy cells have
been recoloured to the mover's colour. -/
def FlipRel (W H : Nat) (my enemy : Int) (f g : List Int) : Prop :=
  ∀ u v : Int, getf W H g u v = getf W H f u v ∨
    (getf W H f u v = enemy ∧ getf W H g u v = my)

lemma flipRel_refl (W H : Nat) (my enemy : Int) (f : List Int) :
    FlipRel W H my enemy f f := fun _ _ => Or.inl rfl

lemma flipRel_trans {W H : Nat} {my enemy : Int} (hne : my ≠ enemy)
    {f g h : List Int} (h1 : FlipRel W H my enemy f g)
    (h2 : FlipRel W H my enemy g h) : FlipRel W H my enemy f h := by
  intro u v
  rcases h2 u v with he | ⟨hge, hhm⟩
  · rcases h1 u v with he1 | ⟨hfe, hgm⟩
    · exact Or.inl (he.trans he1)
    · exact Or.inr ⟨hfe, he.trans hgm⟩
  · rcases h1 u v with he1 | ⟨hfe, hgm⟩
    · exact Or.inr ⟨he1 ▸ hge, hhm⟩
    · exact absurd (hgm.symm.trans hge) hne

/-- A successful scan stays successful after enemy-to-mover recolourings. -/
lemma scanColor_eq_my_mono {W H : Nat} {f g : List Int} {my enemy dx dy : Int}
    (hne : my ≠ enemy) (hrel : FlipRel W H my enemy f g) :
    ∀ (F : Nat) (u v : Int),
    scanColor W H f enemy dx dy F u v = my →
    scanColor W H g enemy dx dy F u v = my := by
  intro F
  induction F with
  | zero => intro u v h; exact h
  | succ F ih =>
      intro u v h
      simp only [scanColor] at h ⊢
      by_cases hf : getf W H f u v = enemy
      · rw [if_pos hf] at h
        rcases hrel u v with he | ⟨-, hgm⟩
        · rw [he] at *
          rw [if_pos hf]
          exact ih _ _ h
        · rw [if_neg (by rw [hgm]; exact hne)]
          exact hgm
      · rw [if_neg hf] at h
        rcases hrel u v with he | ⟨hfe, -⟩
        · rw [he] at *
          rw [if_neg hf]
          exact h
        · exact absurd hfe hf

lemma flipWalk_length (W H : Nat) (my dx dy : Int) :
    ∀ (F : Nat) (x y : Int) (f : List Int),
    (flipWalk W H my dx dy F x y f).length = f.length := by
  intro F
  induction F with
  | zero => intro x y f; rfl
  | succ F ih =>
      intro x y f
      simp only [flipWalk]
      by_cases h : getf W H f x y = my
      · rw [if_pos h]
      · rw [if_neg h, ih]
        simp

lemma flipWalk_mem (W H : Nat) (my dx dy : Int) :
    ∀ (F : Nat) (x y : Int) (f : List Int) (v : Int),
    v ∈ flipWalk W H my dx dy F x y f → v ∈ f ∨ v = my := by
  intro F
  induction F with
  | zero => intro x y f v hv; exact Or.inl hv
  | succ F ih =>
      intro x y f v hv
      simp only [flipWalk] at hv
      by_cases h : getf W H f x y = my
      · rw [if_pos h] at hv; exact Or.inl hv
      · rw [if_neg h] at hv
        rcases ih _ _ _ _ hv with hv | hv
        · rcases List.mem_or_eq_of_mem_set hv with hv | hv
          · exact Or.inl hv
          · exact Or.inr hv
        · exact Or.inr hv

/-- The flip walk of a direction whose scan succeeds preserves the board
length and the non-empty cell count, and only recolours enemy cells to
the mover's colour. -/
lemma flipWalk_master {W H : Nat} {my enemy dx dy : Int}
    (hmy : my = 1 ∨ my = -1) (hen : enemy = -my)
    (hd : ¬(dx = 0 ∧ dy = 0)) :
    ∀ (F : Nat) (x y : Int) (f : List Int),
    f.length = W * H →
    scanColor W H f enemy dx dy F x y = my →
    (flipWalk W H my dx dy F x y f).length = W * H ∧
    countNZ (flipWalk W H my dx dy F x y f) = countNZ f ∧
    FlipRel W H my enemy f (flipWalk W H my dx dy F x y f) := by
  have hmy9 : my ≠ 9 := by rcases hmy with h | h <;> rw [h] <;> norm_num
  have hne : my ≠ enemy := by
    rcases hmy with h | h <;> rw [hen, h] <;> norm_num
  have hen0 : enemy ≠ 0 := by
    rcases hmy with h | h <;> rw [hen, h] <;> norm_num
  have hmy0 : my ≠ 0 := by rcases hmy with h | h <;> rw [h] <;> norm_num
  have hen9 : enemy ≠ 9 := by
    rcases hmy with h | h <;> rw [hen, h] <;> norm_num
  intro F
  induction F with
  | zero =>
      intro x y f _ hscan
      exact absurd hscan.symm hmy9
  | succ F ih =>
      intro x y f hlen hscan
      simp only [flipWalk]
      by_cases h : getf W H f x y = my
      · rw [if_pos h]
        exact ⟨hlen, rfl, flipRel_refl W H my enemy f⟩
      · rw [if_neg h]
        simp only [scanColor] at hscan
        have hfe : getf W H f x y = enemy := by
          by_cases he : getf W H f x y = enemy
          · exact he
          · rw [if_neg he] at hscan; exact absurd hscan h
        rw [if_pos hfe] at hscan
        have hb := getf_inbounds_of_ne_sentinel hfe hen9
        -- the written index reads back the stone; other cells unchanged
        have hlen1 : (f.set (W * y.toNat + x.toNat) my).length = W * H := by
          simp [hlen]
        have hstep : ∀ n : Nat, 1 ≤ n →
            ¬(x + (n : Int) * dx = x ∧ y + (n : Int) * dy = y) := by
          intro n hn hc
          have hdx : dx = 0 := by nlinarith [hc.1]
          have hdy : dy = 0 := by nlinarith [hc.2]
          exact hd ⟨hdx, hdy⟩
        have hscan1 : scanColor W H (f.set (W * y.toNat + x.toNat) my)
            enemy dx dy F (x + dx) (y + dy) = my := by
          rw [scanColor_congr F (x + dx) (y + dy) ?_]
          · exact hscan
          · intro i
            apply getf_set_of_ne f _ _ my hb.1 hb.2.1 hb.2.2.1 hb.2.2.2
            intro hc
            refine hstep (i + 1) (by omega) ?_
            constructor
            · rw [show (x + ((i + 1 : Nat) : Int) * dx) =
                x + dx + (i : Int) * dx by push_cast; ring]
              exact hc.1
            · rw [show (y + ((i + 1 : Nat) : Int) * dy) =
                y + dy + (i : Int) * dy by push_cast; ring]
              exact hc.2
        obtain ⟨hl, hc, hr⟩ := ih (x + dx) (y + dy)
          (f.set (W * y.toNat + x.toNat) my) hlen1 hscan1
        refine ⟨hl, ?_, ?_⟩
        · rw [hc, countNZ_set_nonzero]
          · rw [← getf_eq_getD_of_inbounds hb.1 hb.2.1 hb.2.2.1 hb.2.2.2,
              hfe]
            exact hen0
          · exact hmy0
        · refine flipRel_trans hne ?_ hr
          intro u v
          by_cases hc : u = x ∧ v = y
          · rcases hc with ⟨rfl, rfl⟩
            exact Or.inr ⟨hfe,
              getf_set_self_coords f my hb.1 hb.2.1 hb.2.2.1 hb.2.2.2 hlen⟩
          · exact Or.inl
              (getf_set_of_ne f u v my hb.1 hb.2.1 hb.2.2.1 hb.2.2.2 hc)

lemma dirTriples_move_diff : ∀ t ∈ dirTriples, move_diff t.2.2 = (t.1, t.2.1) := by
  decide

lemma dirTriples_nonzero : ∀ t ∈ dirTriples, ¬(t.1 = 0 ∧ t.2.1 = 0) := by
  decide

lemma mem_cellDirs_elim {W H : Nat} {f : List Int} {my enemy x y : Int}
    {d : Nat} (hmem : d ∈ cellDirs W H f my enemy x y) :
    getf W H f x y = 0 ∧
    ∃ t ∈ dirTriples, t.2.2 = d ∧
      dirOk W H f my enemy x y t.1 t.2.1 = true := by
  unfold cellDirs at hmem
  by_cases h0 : getf W H f x y ≠ 0
  · rw [if_pos h0] at hmem; simp at hmem
  · rw [if_neg h0] at hmem
    push_neg at h0
    refine ⟨h0, ?_⟩
    simp only [List.mem_map, List.mem_filter] at hmem
    obtain ⟨t, ⟨htm, hok⟩, htd⟩ := hmem
    exact ⟨t, htm, htd, hok⟩

lemma calc_movable_dirs_length (W H : Nat) (f : List Int) (p : Nat) :
    (calc_movable_dirs W H f p).length = W * H := by
  simp [calc_movable_dirs]

lemma calc_getD_of_ge (W H : Nat) (f : List Int) (p a : Nat)
    (ha : W * H ≤ a) : (calc_movable_dirs W H f p).getD a [] = [] := by
  rw [List.getD_eq_getElem?_getD, List.getElem?_eq_none]
  · rfl
  · rw [calc_movable_dirs_length]; exact ha

/-- Folding the flip walks of a list of directions whose scans all succeed
in the pre-flip board preserves the non-empty cell count. -/
lemma flip_fold {W H : Nat} {my enemy : Int}
    (hmy : my = 1 ∨ my = -1) (hen : enemy = -my) (x y : Int) :
    ∀ (ds : List Nat) (f1 f : List Int),
    f.length = W * H → countNZ f = countNZ f1 →
    FlipRel W H my enemy f1 f →
    (∀ d ∈ ds, ¬((move_diff d).1 = 0 ∧ (move_diff d).2 = 0) ∧
      scanColor W H f1 enemy (move_diff d).1 (move_diff d).2 (W + H + 2)
        (x + (move_diff d).1) (y + (move_diff d).2) = my) →
    (ds.foldl (fun f d => flipWalk W H my (move_diff d).1 (move_diff d).2
      (W + H + 2) (x + (move_diff d).1) (y + (move_diff d).2) f) f).length
        = W * H ∧
    countNZ (ds.foldl (fun f d => flipWalk W H my (move_diff d).1
      (move_diff d).2 (W + H + 2) (x + (move_diff d).1)
      (y + (move_diff d).2) f) f) = countNZ f1 := by
  have hne : my ≠ enemy := by
    rcases hmy with h | h <;> rw [hen, h] <;> norm_num
  intro ds
  induction ds with
  | nil => intro f1 f hlen hc _ _; exact ⟨hlen, hc⟩
  | cons d ds ih =>
      intro f1 f hlen hc hrel hall
      obtain ⟨hdnz, hdscan⟩ := hall d (List.mem_cons_self d ds)
      have hscanf : scanColor W H f enemy (move_diff d).1 (move_diff d).2
          (W + H + 2) (x + (move_diff d).1) (y + (move_diff d).2) = my :=
        scanColor_eq_my_mono hne hrel _ _ _ hdscan
      obtain ⟨hl, hcnt, hr⟩ := flipWalk_master hmy hen hdnz
        (W + H + 2) (x + (move_diff d).1) (y + (move_diff d).2) f hlen hscanf
      simp only [List.foldl_cons]
      exact ih f1 _ hl (by rw [hcnt, hc]) (flipRel_trans hne hrel hr)
        (fun d2 h2 => hall d2 (List.mem_cons_of_mem d h2))

lemma set_flat_eq (W : Nat) (f : List Int) (a : Nat) (w : Int) :
    f.set a w =
      f.set (W * ((a / W : Nat) : Int).toNat + ((a % W : Nat) : Int).toNat)
        w := by
  rw [Int.toNat_natCast, Int.toNat_natCast, Nat.div_add_mod]

/-- A legal move (one the engine's cached direction map marks movable)
places one stone on an empty cell and only recolours occupied cells: the
non-empty cell count grows by exactly one. -/
lemma step_move_count (e : Othello) (a : Nat)
    (hlen : e.field.length = e.W * e.H)
    (hp : e.player_index = 0 ∨ e.player_index = 1)
    (hm0 : e.mdirs0 = calc_movable_dirs e.W e.H e.field 0)
    (hm1 : e.mdirs1 = calc_movable_dirs e.W e.H e.field 1)
    (hleg : (mdirs e e.player_index).getD a [] ≠ []) :
    countNZ (step_move e a).field = countNZ e.field + 1 := by
  have hmd : mdirs e e.player_index =
      calc_movable_dirs e.W e.H e.field e.player_index := by
    rcases hp with h | h <;> rw [mdirs, h] <;> simp [hm0, hm1]
  have ha : a < e.W * e.H := by
    by_contra hcon
    push_neg at hcon
    rw [hmd, calc_getD_of_ge _ _ _ _ _ hcon] at hleg
    exact hleg rfl
  have hW : 0 < e.W := by
    rcases Nat.eq_zero_or_pos e.W with h | h
    · rw [h] at ha; simp at ha
    · exact h
  have hcell := calc_movable_dirs_getD e.W e.H e.field e.player_index a ha
  have hx0 : (0 : Int) ≤ ((a % e.W : Nat) : Int) := by positivity
  have hxW : ((a % e.W : Nat) : Int) < e.W := by
    exact_mod_cast Nat.mod_lt a hW
  have hy0 : (0 : Int) ≤ ((a / e.W : Nat) : Int) := by positivity
  have hyH : ((a / e.W : Nat) : Int) < e.H := by
    exact_mod_cast Nat.div_lt_of_lt_mul ha
  obtain ⟨d0, hd0⟩ := List.exists_mem_of_ne_nil _ hleg
  have hd0c : d0 ∈ cellDirs e.W e.H e.field (myColor e.player_index)
      (-(myColor e.player_index)) ((a % e.W : Nat) : Int)
      ((a / e.W : Nat) : Int) := by
    rw [← hcell, ← hmd]; exact hd0
  have h0 := (mem_cellDirs_elim hd0c).1
  have hmy := myColor_cases e.player_index
  have hmy0 : myColor e.player_index ≠ 0 := by
    rcases hmy with h | h <;> rw [h] <;> norm_num
  have hgetDa : e.field.getD a 0 = 0 := by
    have heq := getf_eq_getD_of_inbounds (f := e.field) hx0 hxW hy0 hyH
    rw [h0] at heq
    rw [show a = e.W * ((a / e.W : Nat) : Int).toNat +
      ((a % e.W : Nat) : Int).toNat by
        rw [Int.toNat_natCast, Int.toNat_natCast]
        exact (Nat.div_add_mod a e.W).symm]
    exact heq.symm
  have hcount1 : countNZ (e.field.set a (myColor e.player_index)) =
      countNZ e.field + 1 :=
    countNZ_set_zero e.field a (myColor e.player_index)
      (by rw [hlen]; exact ha) hgetDa hmy0
  have hlen1 : (e.field.set a (myColor e.player_index)).length =
      e.W * e.H := by simp [hlen]
  -- every cached direction of the cell scans successfully in the
  -- post-placement board
  have hscans : ∀ d ∈ (mdirs e e.player_index).getD a [],
      ¬((move_diff d).1 = 0 ∧ (move_diff d).2 = 0) ∧
      scanColor e.W e.H (e.field.set a (myColor e.player_index))
        (-(myColor e.player_index)) (move_diff d).1 (move_diff d).2
        (e.W + e.H + 2)
        (((a % e.W : Nat) : Int) + (move_diff d).1)
        (((a / e.W : Nat) : Int) + (move_diff d).2) = myColor e.player_index := by
    intro d hd
    have hdc : d ∈ cellDirs e.W e.H e.field (myColor e.player_index)
        (-(myColor e.player_index)) ((a % e.W : Nat) : Int)
        ((a / e.W : Nat) : Int) := by
      rw [← hcell, ← hmd]; exact hd
    obtain ⟨-, t, htm, htd, hok⟩ := mem_cellDirs_elim hdc
    have hmd2 : move_diff d = (t.1, t.2.1) := by
      rw [← htd]; exact dirTriples_move_diff t htm
    have hnz : ¬(t.1 = 0 ∧ t.2.1 = 0) := by
      have := dirTriples_nonzero t htm
      exact this
    rw [hmd2]
    refine ⟨hnz, ?_⟩
    rw [dirOk, Bool.and_eq_true, decide_eq_true_eq, decide_eq_true_eq] at hok
    obtain ⟨hadj, hscan⟩ := hok
    have hne : myColor e.player_index ≠ -(myColor e.player_index) := by
      rcases hmy with h | h <;> rw [h] <;> norm_num
    have hmy9 : myColor e.player_index ≠ 9 := by
      rcases hmy with h | h <;> rw [h] <;> norm_num
    -- scan succeeds in the original board from one step out
    have hscan1 : scanColor e.W e.H e.field (-(myColor e.player_index))
        t.1 t.2.1 (e.W + e.H + 2)
        (((a % e.W : Nat) : Int) + t.1)
        (((a / e.W : Nat) : Int) + t.2.1) = myColor e.player_index := by
      show (if _ then _ else _) = _
      rw [if_pos hadj,
        show ((a % e.W : Nat) : Int) + t.1 + t.1 =
          ((a % e.W : Nat) : Int) + 2 * t.1 by ring,
        show ((a / e.W : Nat) : Int) + t.2.1 + t.2.1 =
          ((a / e.W : Nat) : Int) + 2 * t.2.1 by ring]
      exact scanColor_mono_fuel hne hmy9 (by omega) hscan
    -- transfer to the post-placement board: the ray avoids the placed cell
    rw [set_flat_eq e.W e.field a]
    rw [scanColor_congr (e.W + e.H + 2) _ _ ?_]
    · exact hscan1
    · intro i
      apply getf_set_of_ne e.field _ _ (myColor e.player_index)
        hx0 hxW hy0 hyH
      intro hc
      have h1 : ((i + 1 : Nat) : Int) * t.1 = 0 := by
        have := hc.1
        rw [show ((a % e.W : Nat) : Int) + t.1 + (i : Int) * t.1 =
          ((a % e.W : Nat) : Int) + ((i + 1 : Nat) : Int) * t.1 by
            push_cast; ring] at this
        omega
      have h2 : ((i + 1 : Nat) : Int) * t.2.1 = 0 := by
        have := hc.2
        rw [show ((a / e.W : Nat) : Int) + t.2.1 + (i : Int) * t.2.1 =
          ((a / e.W : Nat) : Int) + ((i + 1 : Nat) : Int) * t.2.1 by
            push_cast; ring] at this
        omega
      have hip : ((i + 1 : Nat) : Int) ≠ 0 := by positivity
      exact hnz ⟨by
        rcases mul_eq_zero.1 h1 with h | h
        · exact absurd h hip
        · exact h, by
        rcases mul_eq_zero.1 h2 with h | h
        · exact absurd h hip
        · exact h⟩
  have hintermediate := flip_fold hmy rfl
    ((a % e.W : Nat) : Int) ((a / e.W : Nat) : Int)
    ((mdirs e e.player_index).getD a [])
    (e.field.set a (myColor e.player_index))
    (e.field.set a (myColor e.player_index))
    hlen1 rfl
    (flipRel_refl e.W e.H (myColor e.player_index)
      (-(myColor e.player_index)) _)
    hscans
  have hfield : (step_move e a).field =
      ((mdirs e e.player_index).getD a []).foldl
        (fun f d => flipWalk e.W e.H (myColor e.player_index)
          (move_diff d).1 (move_diff d).2 (e.W + e.H + 2)
          (((a % e.W : Nat) : Int) + (move_diff d).1)
          (((a / e.W : Nat) : Int) + (move_diff d).2) f)
        (e.field.set a (myColor e.player_index)) := rfl
  rw [hfield, hintermediate.2, hcount1]

lemma flip_fold_length (W H : Nat) (my x y : Int) :
    ∀ (ds : List Nat) (f : List Int),
    (ds.foldl (fun f d => flipWalk W H my (move_diff d).1 (move_diff d).2
      (W + H + 2) (x + (move_diff d).1) (y + (move_diff d).2) f) f).length
      = f.length := by
  intro ds
  induction ds with
  | nil => intro f; rfl
  | cons d ds ih =>
      intro f
      simp only [List.foldl_cons]
      rw [ih, flipWalk_length]

lemma flip_fold_mem (W H : Nat) (my x y : Int) :
    ∀ (ds : List Nat) (f : List Int) (v : Int),
    v ∈ ds.foldl (fun f d => flipWalk W H my (move_diff d).1
      (move_diff d).2 (W + H + 2) (x + (move_diff d).1)
      (y + (move_diff d).2) f) f → v ∈ f ∨ v = my := by
  intro ds
  induction ds with
  | nil => intro f v hv; exact Or.inl hv
  | cons d ds ih =>
      intro f v hv
      simp only [List.foldl_cons] at hv
      rcases ih _ _ hv with hv | hv
      · exact flipWalk_mem W H my _ _ _ _ _ _ _ hv
      · exact Or.inr hv

lemma step_move_WF (e : Othello) (a : Nat)
    (hlen : e.field.length = e.W * e.H)
    (hent : ∀ v ∈ e.field, v = -1 ∨ v = 0 ∨ v = 1)
    (hp : e.player_index = 0 ∨ e.player_index = 1) :
    WF (step_move e a) := by
  have hfield : (step_move e a).field =
      ((mdirs e e.player_index).getD a []).foldl
        (fun f d => flipWalk e.W e.H (myColor e.player_index)
          (move_diff d).1 (move_diff d).2 (e.W + e.H + 2)
          (((a % e.W : Nat) : Int) + (move_diff d).1)
          (((a / e.W : Nat) : Int) + (move_diff d).2) f)
        (e.field.set a (myColor e.player_index)) := rfl
  refine ⟨?_, ?_, hp, rfl, rfl⟩
  · show (step_move e a).field.length = e.W * e.H
    rw [hfield, flip_fold_length]
    simp [hlen]
  · intro v hv
    rw [hfield] at hv
    rcases flip_fold_mem _ _ _ _ _ _ _ _ hv with hv | hv
    · rcases List.mem_or_eq_of_mem_set hv with hv | hv
      · exact hent v hv
      · rcases myColor_cases e.player_index with h | h <;> rw [hv, h] <;> simp
    · rcases myColor_cases e.player_index with h | h <;> rw [hv, h] <;> simp

lemma call_step_WF (e : Othello) (a : Nat) (h : WF e) :
    WF (call_step e a).1 := by
  obtain ⟨hlen, hent, hp, hm0, hm1⟩ := h
  rw [call_step_def]
  by_cases hleg : ((mdirs e e.player_index).getD a []).isEmpty = true
  · rw [if_pos hleg]
    split_ifs <;> exact ⟨hlen, hent, hp, hm0, hm1⟩
  · rw [if_neg hleg]
    have hwf2 : WF (step_move { e with action := a } a) :=
      step_move_WF { e with action := a } a hlen hent hp
    obtain ⟨hlen2, hent2, hp2, hm02, hm12⟩ := hwf2
    have hpe : enemy_player (step_move { e with action := a } a) = 0 ∨
        enemy_player (step_move { e with action := a } a) = 1 := by
      unfold enemy_player
      split <;> simp
    split_ifs <;>
      first
        | exact ⟨hlen2, hent2, hp2, hm02, hm12⟩
        | exact ⟨hlen2, hent2, hpe, hm02, hm12⟩

lemma reachable_WF {W H : Nat} {e : Othello} (hr : Reachable W H e) :
    WF e := by
  induction hr with
  | reset =>
      refine ⟨by simp [call_reset], ?_, Or.inl rfl, rfl, rfl⟩
      intro v hv
      rcases List.mem_or_eq_of_mem_set hv with hv | hv
      · rcases List.mem_or_eq_of_mem_set hv with hv | hv
        · rcases List.mem_or_eq_of_mem_set hv with hv | hv
          · rcases List.mem_or_eq_of_mem_set hv with hv | hv
            · rw [List.eq_of_mem_replicate hv]; simp
            · rw [hv]; simp
          · rw [hv]; simp
        · rw [hv]; simp
      · rw [hv]; simp
  | step e a _ ih => exact call_step_WF e a ih

/-- C7 (claims file): along reachable states the non-empty cell count never
decreases under `call_step`, and any action with a non-empty cached
movable-direction set (neither an illegal selection nor a pass) raises it
by exactly one. -/
theorem stone_count_step (W H : Nat) (e : Othello) (hr : Reachable W H e)
    (a : Nat) :
    countNZ e.field ≤ countNZ (call_step e a).1.field ∧
    ((mdirs e e.player_index).getD a [] ≠ [] →
      countNZ (call_step e a).1.field = countNZ e.field + 1) := by
  obtain ⟨hlen, hent, hp, hm0, hm1⟩ := reachable_WF hr
  by_cases hleg : (mdirs e e.player_index).getD a [] = []
  · rw [call_step_def, if_pos (isEmpty_true_of_eq_nil hleg)]
    constructor
    · split_ifs <;> exact le_refl _
    · intro h; exact absurd hleg h
  · rw [call_step_def, if_neg (isEmpty_false_of_ne_nil hleg)]
    have hcount : countNZ (step_move { e with action := a } a).field =
        countNZ e.field + 1 :=
      step_move_count { e with action := a } a hlen hp hm0 hm1 hleg
    constructor
    · split_ifs <;> rw [show countNZ e.field ≤ _ ↔ _ from Iff.rfl] <;>
        exact le_of_eq_of_le rfl (by rw [hcount]; omega)
    · intro _
      split_ifs <;> exact hcount

theorem stone_count_step_witness :
    countNZ (call_reset 4 4).field ≤
      countNZ (call_step (call_reset 4 4) 7).1.field ∧
    ((mdirs (call_reset 4 4) (call_reset 4 4).player_index).getD 7 [] ≠ [] →
      countNZ (call_step (call_reset 4 4) 7).1.field =
        countNZ (call_reset 4 4).field + 1) :=
  stone_count_step 4 4 (call_reset 4 4) Reachable.reset 7

/-! ## The search agent: cut nodes compute `leafVec` -/

lemma mem_valid_iff (e : Othello) (p a : Nat) :
    a ∈ get_valid_actions e p ↔
      a < e.H * e.W ∧ (mdirs e p).getD a [] ≠ [] := by
  unfold get_valid_actions
  rw [List.mem_filter, List.mem_range]
  constructor
  · rintro ⟨h1, h2⟩
    refine ⟨h1, ?_⟩
    intro hnil
    rw [isEmpty_true_of_eq_nil hnil] at h2
    simp at h2
  · rintro ⟨h1, h2⟩
    refine ⟨h1, ?_⟩
    have := isEmpty_false_of_ne_nil h2
    simp only [Bool.not_eq_true] at this
    rw [this]
    rfl

/-- Folding a step function that never touches the threaded cache. -/
lemma foldl_pair {G : List Int × Cache → Nat → List Int × Cache}
    {g : List Int → Nat → List Int} :
    ∀ (l : List Nat) (s : List Int) (c : Cache),
    (∀ s2 c2 a, a ∈ l → G (s2, c2) a = (g s2 a, c2)) →
    l.foldl G (s, c) = (l.foldl g s, c) := by
  intro l
  induction l with
  | nil => intro s c _; rfl
  | cons a l ih =>
      intro s c h
      simp only [List.foldl_cons]
      rw [h s c a (List.mem_cons_self a l)]
      exact ih _ _ (fun s2 c2 b hb => h s2 c2 b (List.mem_cons_of_mem a hb))

lemma negamaxStep_cut {md depth : Nat} (hd : md < depth) (e : Othello)
    (recur : Othello → Cache → List Int × Cache)
    (sc : List Int) (c : Cache) (a : Nat) :
    negamaxStep md depth e recur (sc, c) a = (sc.set a (leafVal e a), c) := by
  unfold negamaxStep leafVal
  by_cases h : (call_step e a).2.2.2.1 <;> simp [h, hd]

/-- At a cut node (`depth > max_depth`) with a cache miss, `_negamax`
computes and stores exactly the one-level leaf vector. -/
lemma negamax_cut (md F depth : Nat) (e : Othello) (c : Cache)
    (hd : md < depth) (hmiss : List.lookup e.field c = none) :
    negamax md (F + 1) e depth c =
      (leafVec e, (e.field, leafVec e) :: c) := by
  show (match List.lookup e.field c with
    | some v => (v, c)
    | none =>
      let res := (get_valid_actions e e.player_index).foldl
        (negamaxStep md depth e
          (fun e2 c2 => negamax md F e2 (depth + 1) c2))
        (List.replicate (e.W * e.H) (-999), c)
      (res.1, (e.field, res.1) :: res.2)) = _
  rw [hmiss]
  have hfold := foldl_pair (G := negamaxStep md depth e
      (fun e2 c2 => negamax md F e2 (depth + 1) c2))
    (g := fun sc a => sc.set a (leafVal e a))
    (get_valid_actions e e.player_index)
    (List.replicate (e.W * e.H) (-999)) c
    (fun s2 c2 a _ => negamaxStep_cut hd e _ s2 c2 a)
  simp only [hfold]
  rfl

lemma getD_replicate (n j : Nat) (v : Int) :
    (List.replicate n v).getD j v = v := by
  rw [List.getD_eq_getElem?_getD, List.getElem?_replicate]
  split <;> rfl

lemma foldl_set_length (w : Nat → Int) :
    ∀ (l : List Nat) (sc : List Int),
    (l.foldl (fun sc a => sc.set a (w a)) sc).length = sc.length := by
  intro l
  induction l with
  | nil => intro sc; rfl
  | cons a l ih => intro sc; simp only [List.foldl_cons]; rw [ih]; simp

lemma foldl_set_getD_not_mem (w : Nat → Int) (d : Int) :
    ∀ (l : List Nat) (sc : List Int) (b : Nat), b ∉ l →
    (l.foldl (fun sc a => sc.set a (w a)) sc).getD b d = sc.getD b d := by
  intro l
  induction l with
  | nil => intro sc b _; rfl
  | cons a l ih =>
      intro sc b hb
      simp only [List.foldl_cons]
      rw [ih _ _ (fun h => hb (List.mem_cons_of_mem a h))]
      rw [List.getD_eq_getElem?_getD, List.getD_eq_getElem?_getD,
        List.getElem?_set_ne
          (fun h => hb (by subst h; exact List.mem_cons_self a l))]

lemma foldl_set_getD_mem (w : Nat → Int) :
    ∀ (l : List Nat) (sc : List Int) (b : Nat), b ∈ l → b < sc.length →
    (l.foldl (fun sc a => sc.set a (w a)) sc).getD b (-999) = w b := by
  intro l
  induction l with
  | nil => intro sc b hb; simp at hb
  | cons a l ih =>
      intro sc b hb hlen
      simp only [List.foldl_cons]
      by_cases hbl : b ∈ l
      · exact ih _ _ hbl (by simpa using hlen)
      · have hba : b = a := by
          rcases List.mem_cons.1 hb with h | h
          · exact h
          · exact absurd h hbl
        subst hba
        rw [foldl_set_getD_not_mem w (-999) l _ b hbl,
          List.getD_eq_getElem?_getD, List.getElem?_set_eq_of_lt _ hlen]
        rfl

lemma leafVec_length (e : Othello) : (leafVec e).length = e.W * e.H := by
  unfold leafVec
  rw [foldl_set_length]
  simp

lemma leafVec_getD_mem (e : Othello) (a : Nat)
    (ha : a ∈ get_valid_actions e e.player_index) :
    (leafVec e).getD a (-999) = leafVal e a := by
  unfold leafVec
  apply foldl_set_getD_mem _ _ _ _ ha
  rw [List.length_replicate, Nat.mul_comm]
  exact ((mem_valid_iff e e.player_index a).1 ha).1

/-- C6 amended (claims file): at a cut node (`depth > max_depth`, cache
miss) the leaf score of a legal action with a non-terminal child is the
dot product of the size-appropriate evaluation table with the child
board (`heuristic`, constant `0` for sizes without a table), with the
sign inverted exactly when the mover at the cut node — not the original
root mover — is not player `0`. -/
theorem negamax_cut_leaf_sign (md F depth : Nat) (e : Othello) (c : Cache)
    (hd : md < depth) (hmiss : List.lookup e.field c = none)
    (a : Nat) (ha : a ∈ get_valid_actions e e.player_index)
    (hnd : (call_step e a).2.2.2.1 = false) :
    (negamax md (F + 1) e depth c).1.getD a (-999) =
      (if e.player_index ≠ 0 then -(heuristic (call_step e a).1)
       else heuristic (call_step e a).1) := by
  rw [negamax_cut md F depth e c hd hmiss]
  show (leafVec e).getD a (-999) = _
  rw [leafVec_getD_mem e a ha]
  simp [leafVal, hnd]

theorem negamax_cut_leaf_sign_witness :
    (negamax 0 1 ((call_step (call_reset 6 6) 9).1) 1 []).1.getD 10 (-999) =
      (if ((call_step (call_reset 6 6) 9).1).player_index ≠ 0
       then -(heuristic (call_step ((call_step (call_reset 6 6) 9).1) 10).1)
       else heuristic (call_step ((call_step (call_reset 6 6) 9).1) 10).1) :=
  negamax_cut_leaf_sign 0 0 1 ((call_step (call_reset 6 6) 9).1) []
    (by omega) rfl 10 (by decide) (by decide)

/-- C6 counterexample (claims file): in the search with `max_depth = 0`
started from the 6×6 opening — whose root mover is player `0` — the
depth-1 cut node reached by the root's first legal action `9` has mover
`1`, and its leaf score for the legal, non-terminal reply `10` is the
*negated* table dot product (`-12`, the dot product being `12 ≠ 0`): the
inversion follows the cut node's mover, while the claim (sign inverted
exactly when the original root mover is player `1`) predicts no
inversion here.  The empty cache is exactly the cache state when this
node is evaluated, `9` being the root's first explored action. -/
theorem negamax_leaf_sign_cex :
    (call_reset 6 6).player_index = 0 ∧
    9 ∈ get_valid_actions (call_reset 6 6) 0 ∧
    List.lookup (call_reset 6 6).field ([] : Cache) = none ∧
    (call_step (call_reset 6 6) 9).2.2.2.1 = false ∧
    ((call_step (call_reset 6 6) 9).1).player_index = 1 ∧
    10 ∈ get_valid_actions ((call_step (call_reset 6 6) 9).1)
      ((call_step (call_reset 6 6) 9).1).player_index ∧
    (call_step ((call_step (call_reset 6 6) 9).1) 10).2.2.2.1 = false ∧
    dotEval evals6x6
      (call_step ((call_step (call_reset 6 6) 9).1) 10).1.field = 12 ∧
    (negamax 0 1 ((call_step (call_reset 6 6) 9).1) 1 []).1.getD 10 (-999) =
      -12 := by
  decide

/-! ## C5: with `max_depth = 0` the root is a two-ply lookahead -/

lemma Othello_eq_of_components {e1 e2 : Othello} (hW : e1.W = e2.W)
    (hH : e1.H = e2.H) (hf : e1.field = e2.field)
    (hp : e1.player_index = e2.player_index)
    (hm0 : e1.mdirs0 = e2.mdirs0) (hm1 : e1.mdirs1 = e2.mdirs1)
    (ha : e1.action = e2.action) : e1 = e2 := by
  cases e1; cases e2
  simp only at hW hH hf hp hm0 hm1 ha
  subst hW; subst hH; subst hf; subst hp; subst hm0; subst hm1; subst ha
  rfl

/-- The `action` attribute is display-only: `leafVec` ignores it. -/
lemma leafVec_setAction (e : Othello) (x : Nat) :
    leafVec { e with action := x } = leafVec e := rfl

/-- The non-terminal result state of a legal `call_step`: the stepped
board, with the mover switched unless the opponent cannot move. -/
lemma call_step_nondone_state (e : Othello) (a : Nat)
    (hleg : (mdirs e e.player_index).getD a [] ≠ [])
    (hnd : (call_step e a).2.2.2.1 = false) :
    (call_step e a).1 =
      (if put_num (step_move { e with action := a } a)
          (enemy_player (step_move { e with action := a } a)) = 0 then
        step_move { e with action := a } a
      else { step_move { e with action := a } a with
             player_index :=
               enemy_player (step_move { e with action := a } a) }) := by
  rw [call_step_def, if_neg (isEmpty_false_of_ne_nil hleg)] at hnd ⊢
  split_ifs at hnd ⊢ <;> rfl

lemma put_num_enemy_congr (x1 x2 : Othello)
    (hW : x1.W = x2.W) (hH : x1.H = x2.H)
    (hp : x1.player_index = x2.player_index)
    (hm0 : x1.mdirs0 = x2.mdirs0) (hm1 : x1.mdirs1 = x2.mdirs1) :
    put_num x1 (enemy_player x1) = put_num x2 (enemy_player x2) := by
  unfold put_num get_invalid_actions enemy_player mdirs
  rw [hW, hH, hp, hm0, hm1]

/-- Two legal non-terminal moves of the same node that produce the same
board produce children with identical leaf vectors (the states agree in
everything but the display-only `action`). -/
lemma leafVec_child_congr (e : Othello) (a1 a2 : Nat)
    (h1 : (mdirs e e.player_index).getD a1 [] ≠ [])
    (h2 : (mdirs e e.player_index).getD a2 [] ≠ [])
    (hnd1 : (call_step e a1).2.2.2.1 = false)
    (hnd2 : (call_step e a2).2.2.2.1 = false)
    (hf : (call_step e a1).1.field = (call_step e a2).1.field) :
    leafVec ((call_step e a1).1) = leafVec ((call_step e a2).1) := by
  have hs1 := call_step_nondone_state e a1 h1 hnd1
  have hs2 := call_step_nondone_state e a2 h2 hnd2
  have hmf : (step_move { e with action := a1 } a1).field =
      (step_move { e with action := a2 } a2).field := by
    have f1 : (call_step e a1).1.field =
        (step_move { e with action := a1 } a1).field := by
      rw [hs1]; split_ifs <;> rfl
    have f2 : (call_step e a2).1.field =
        (step_move { e with action := a2 } a2).field := by
      rw [hs2]; split_ifs <;> rfl
    rw [← f1, ← f2, hf]
  have hm0 : (step_move { e with action := a1 } a1).mdirs0 =
      (step_move { e with action := a2 } a2).mdirs0 := by
    show calc_movable_dirs e.W e.H
        (step_move { e with action := a1 } a1).field 0 =
      calc_movable_dirs e.W e.H
        (step_move { e with action := a2 } a2).field 0
    rw [hmf]
  have hm1 : (step_move { e with action := a1 } a1).mdirs1 =
      (step_move { e with action := a2 } a2).mdirs1 := by
    show calc_movable_dirs e.W e.H
        (step_move { e with action := a1 } a1).field 1 =
      calc_movable_dirs e.W e.H
        (step_move { e with action := a2 } a2).field 1
    rw [hmf]
  have hput := put_num_enemy_congr (step_move { e with action := a1 } a1)
    (step_move { e with action := a2 } a2) rfl rfl rfl hm0 hm1
  rw [hs1, hs2]
  by_cases hz : put_num (step_move { e with action := a1 } a1)
      (enemy_player (step_move { e with action := a1 } a1)) = 0
  · rw [if_pos hz, if_pos (hput ▸ hz)]
    have heq : step_move { e with action := a1 } a1 =
        { step_move { e with action := a2 } a2 with action := a1 } :=
      Othello_eq_of_components rfl rfl hmf rfl hm0 hm1 rfl
    rw [heq, leafVec_setAction]
  · rw [if_neg hz, if_neg (hput ▸ hz)]
    have hpe : enemy_player (step_move { e with action := a1 } a1) =
        enemy_player (step_move { e with action := a2 } a2) := rfl
    have heq : ({ step_move { e with action := a1 } a1 with
        player_index :=
          enemy_player (step_move { e with action := a1 } a1) } : Othello) =
        { { step_move { e with action := a2 } a2 with
            player_index :=
              enemy_player (step_move { e with action := a2 } a2) } with
          action := a1 } :=
      Othello_eq_of_components rfl rfl hmf hpe hm0 hm1 rfl
    rw [heq, leafVec_setAction]

lemma lookup_cons (k k' v' : List Int) (c : Cache) :
    List.lookup k ((k', v') :: c) =
      if k = k' then some v' else List.lookup k c := by
  by_cases h : k = k'
  · subst h; simp [List.lookup]
  · have hb : (k == k') = false := beq_eq_false_iff_ne.2 h
    simp [List.lookup, hb, h]

lemma lookup_mem {c : Cache} {k v : List Int}
    (h : List.lookup k c = some v) : ∃ k', (k', v) ∈ c := by
  induction c with
  | nil => simp [List.lookup] at h
  | cons kv t ih =>
      rw [show kv = (kv.1, kv.2) from rfl, lookup_cons] at h
      split_ifs at h with hk
      · exact ⟨kv.1, by rw [show kv = (kv.1, kv.2) from rfl,
          Option.some_inj.1 h]; exact List.mem_cons_self _ _⟩
      · obtain ⟨k', hk'⟩ := ih h
        exact ⟨k', List.mem_cons_of_mem _ hk'⟩

/-- During one root search with `max_depth = 0`, every cache entry is the
leaf vector of a non-terminal child of the root, keyed by that child's
board. -/
def GoodCache (e : Othello) (c : Cache) : Prop :=
  ∀ k v, List.lookup k c = some v →
    ∃ a, a ∈ get_valid_actions e e.player_index ∧
      (call_step e a).2.2.2.1 = false ∧
      (call_step e a).1.field = k ∧ v = leafVec (call_step e a).1

lemma goodCache_nil (e : Othello) : GoodCache e [] := by
  intro k v h
  simp [List.lookup] at h

/-- With a good cache, evaluating a non-terminal child of the root at
depth `1` (with `max_depth = 0`) yields that child's leaf vector — on a
miss by direct computation, on a hit because the cached entry belongs to
a same-board child — and keeps the cache good. -/
lemma negamax_child_eval (F : Nat) (e : Othello) (c : Cache) (a : Nat)
    (hGood : GoodCache e c)
    (ha : a ∈ get_valid_actions e e.player_index)
    (hnd : (call_step e a).2.2.2.1 = false) :
    (negamax 0 (F + 1) (call_step e a).1 1 c).1 =
      leafVec (call_step e a).1 ∧
    GoodCache e (negamax 0 (F + 1) (call_step e a).1 1 c).2 := by
  cases hl : List.lookup (call_step e a).1.field c with
  | none =>
      rw [negamax_cut 0 F 1 _ c (by omega) hl]
      refine ⟨rfl, ?_⟩
      intro k v hkv
      rw [lookup_cons] at hkv
      split_ifs at hkv with hk
      · refine ⟨a, ha, hnd, hk.symm, ?_⟩
        exact (Option.some_inj.1 hkv).symm
      · exact hGood k v hkv
  | some v =>
      have h1 : negamax 0 (F + 1) (call_step e a).1 1 c = (v, c) := by
        show (match List.lookup (call_step e a).1.field c with
          | some v => (v, c)
          | none =>
            let res := (get_valid_actions (call_step e a).1
                (call_step e a).1.player_index).foldl
              (negamaxStep 0 1 (call_step e a).1
                (fun e2 c2 => negamax 0 F e2 2 c2))
              (List.replicate ((call_step e a).1.W * (call_step e a).1.H)
                (-999), c)
            (res.1, ((call_step e a).1.field, res.1) :: res.2)) = _
        rw [hl]
      rw [h1]
      obtain ⟨a2, ha2, hnd2, hfe, hve⟩ := hGood _ v hl
      refine ⟨?_, hGood⟩
      rw [hve]
      exact leafVec_child_congr e a2 a
        ((mem_valid_iff e e.player_index a2).1 ha2).2
        ((mem_valid_iff e e.player_index a).1 ha).2
        hnd2 hnd hfe

/-- The root entry of one legal action in a `max_depth = 0` search: the
scaled terminal reward if the move itself ends the game, else the
(sign-flipped on mover alternation) maximum of the child's leaf vector,
whose entries score boards exactly two moves ahead. -/
def rootVal (e : Othello) (a : Nat) : Int :=
  if (call_step e a).2.2.2.1 then
    (if e.player_index = 0 then (call_step e a).2.1
     else (call_step e a).2.2.1) * 500
  else if e.player_index ≠ (call_step e a).1.player_index then
    -(listMax (leafVec (call_step e a).1))
  else listMax (leafVec (call_step e a).1)

lemma root_fold_md0 (F : Nat) (e : Othello) :
    ∀ (l : List Nat) (sc : List Int) (c : Cache),
    (∀ a ∈ l, a ∈ get_valid_actions e e.player_index) →
    sc.length = e.W * e.H → GoodCache e c →
    GoodCache e (l.foldl (negamaxStep 0 0 e
      (fun e2 c2 => negamax 0 (F + 1) e2 1 c2)) (sc, c)).2 ∧
    (∀ b ∈ l, (l.foldl (negamaxStep 0 0 e
      (fun e2 c2 => negamax 0 (F + 1) e2 1 c2)) (sc, c)).1.getD b (-999) =
      rootVal e b) ∧
    (∀ b, b ∉ l → (l.foldl (negamaxStep 0 0 e
      (fun e2 c2 => negamax 0 (F + 1) e2 1 c2)) (sc, c)).1.getD b (-999) =
      sc.getD b (-999)) := by
  intro l
  induction l with
  | nil =>
      intro sc c _ _ hGood
      exact ⟨hGood, by simp, fun b _ => rfl⟩
  | cons a l ih =>
      intro sc c hmem hlen hGood
      have ha := hmem a (List.mem_cons_self a l)
      have haN : a < sc.length := by
        rw [hlen, Nat.mul_comm]
        exact ((mem_valid_iff e e.player_index a).1 ha).1
      by_cases hdone : (call_step e a).2.2.2.1 = true
      · have hstep : negamaxStep 0 0 e
            (fun e2 c2 => negamax 0 (F + 1) e2 1 c2) (sc, c) a =
            (sc.set a (rootVal e a), c) := by
          unfold negamaxStep rootVal
          rw [if_pos hdone, if_pos hdone]
        simp only [List.foldl_cons, hstep]
        obtain ⟨hG, hmemc, hpres⟩ := ih (sc.set a (rootVal e a)) c
          (fun b hb => hmem b (List.mem_cons_of_mem a hb))
          (by simp [hlen]) hGood
        refine ⟨hG, ?_, ?_⟩
        · intro b hb
          rcases List.mem_cons.1 hb with rfl | hb2
          · by_cases hbl : b ∈ l
            · exact hmemc b hbl
            · rw [hpres b hbl, List.getD_eq_getElem?_getD,
                List.getElem?_set_eq_of_lt _ haN]
              rfl
          · exact hmemc b hb2
        · intro b hb
          rw [hpres b (fun h => hb (List.mem_cons_of_mem a h)),
            List.getD_eq_getElem?_getD, List.getD_eq_getElem?_getD,
            List.getElem?_set_ne
              (fun h => hb (by subst h; exact List.mem_cons_self a l))]
      · have hnd : (call_step e a).2.2.2.1 = false := by
          simpa using hdone
        obtain ⟨hval, hG1⟩ := negamax_child_eval F e c a hGood ha hnd
        have hstep : negamaxStep 0 0 e
            (fun e2 c2 => negamax 0 (F + 1) e2 1 c2) (sc, c) a =
            (sc.set a (rootVal e a),
             (negamax 0 (F + 1) (call_step e a).1 1 c).2) := by
          simp [negamaxStep, rootVal, hnd, hval]
        simp only [List.foldl_cons, hstep]
        obtain ⟨hG, hmemc, hpres⟩ := ih (sc.set a (rootVal e a))
          (negamax 0 (F + 1) (call_step e a).1 1 c).2
          (fun b hb => hmem b (List.mem_cons_of_mem a hb))
          (by simp [hlen]) hG1
        refine ⟨hG, ?_, ?_⟩
        · intro b hb
          rcases List.mem_cons.1 hb with rfl | hb2
          · by_cases hbl : b ∈ l
            · exact hmemc b hbl
            · rw [hpres b hbl, List.getD_eq_getElem?_getD,
                List.getElem?_set_eq_of_lt _ haN]
              rfl
          · exact hmemc b hb2
        · intro b hb
          rw [hpres b (fun h => hb (List.mem_cons_of_mem a h)),
            List.getD_eq_getElem?_getD, List.getD_eq_getElem?_getD,
            List.getElem?_set_ne
              (fun h => hb (by subst h; exact List.mem_cons_self a l))]

/-- C5 amended (claims file): with `max_depth = 0` and a fresh cache, the
root score of a legal action is a *two*-ply value: the `±500`-scaled
terminal reward when the move itself ends the game, and otherwise the
(sign-flipped on mover alternation) maximum of the child's leaf vector,
whose entries are static heuristic evaluations of boards exactly two
moves ahead, or `±500`-scaled terminal rewards when the second move ends
the game. -/
theorem negamax_depth0_two_ply (e : Othello) (a : Nat)
    (ha : a ∈ get_valid_actions e e.player_index) :
    (negamax 0 2 e 0 []).1.getD a (-999) = rootVal e a := by
  have h := root_fold_md0 0 e (get_valid_actions e e.player_index)
    (List.replicate (e.W * e.H) (-999)) []
    (fun _ hb => hb) (by simp) (goodCache_nil e)
  exact h.2.1 a ha

theorem negamax_depth0_two_ply_witness :
    (negamax 0 2 (mkState 7 1 [0, -1, 1, 0, -1, 1, 1] 0) 0
      []).1.getD 0 (-999) =
    rootVal (mkState 7 1 [0, -1, 1, 0, -1, 1, 1] 0) 0 :=
  negamax_depth0_two_ply (mkState 7 1 [0, -1, 1, 0, -1, 1, 1] 0) 0
    (by decide)

/-- C5 counterexample (claims file): on the 7×1 board `[0,-1,1,0,-1,1,1]`
with player `0` to move and `max_depth = 0`, action `0` is legal and
does not end the game (the opponent must pass, so the same mover plays
again), yet its root score is `500` — a `±500`-scaled terminal value
arising two moves ahead — while the static heuristic evaluation of the
board one move ahead is `0` (boards with `W = 7` have no table), so the
root entry is not the one-move-ahead heuristic. -/
theorem negamax_depth0_cex :
    0 ∈ get_valid_actions (mkState 7 1 [0, -1, 1, 0, -1, 1, 1] 0) 0 ∧
    (call_step (mkState 7 1 [0, -1, 1, 0, -1, 1, 1] 0) 0).2.2.2.1 = false ∧
    (negamax 0 2 (mkState 7 1 [0, -1, 1, 0, -1, 1, 1] 0) 0
      []).1.getD 0 (-999) = 500 ∧
    heuristic (call_step (mkState 7 1 [0, -1, 1, 0, -1, 1, 1] 0) 0).1 = 0 ∧
    (negamax 0 2 (mkState 7 1 [0, -1, 1, 0, -1, 1, 1] 0) 0
      []).1.getD 0 (-999) ≠
      heuristic (call_step (mkState 7 1 [0, -1, 1, 0, -1, 1, 1] 0) 0).1 := by
  decide

/-! ## C10: the root policy only selects legal actions -/

lemma foldl_max_init_le (t : List Int) (b : Int) : b ≤ t.foldl max b := by
  induction t generalizing b with
  | nil => exact le_refl b
  | cons x t ih =>
      simp only [List.foldl_cons]
      exact le_trans (le_max_left b x) (ih (max b x))

lemma foldl_max_mem_le (t : List Int) (b : Int) :
    ∀ x ∈ t, x ≤ t.foldl max b := by
  induction t generalizing b with
  | nil => intro x hx; simp at hx
  | cons y t ih =>
      intro x hx
      simp only [List.foldl_cons]
      rcases List.mem_cons.1 hx with rfl | hx2
      · exact le_trans (le_max_right b x) (foldl_max_init_le t (max b x))
      · exact ih (max b y) x hx2

lemma le_listMax {l : List Int} {x : Int} (hx : x ∈ l) : x ≤ listMax l := by
  cases l with
  | nil => simp at hx
  | cons h t =>
      rcases List.mem_cons.1 hx with rfl | hx2
      · exact foldl_max_init_le t x
      · exact foldl_max_mem_le t h x hx2

lemma foldl_max_le (t : List Int) (b c : Int) (hb : b ≤ c)
    (h : ∀ x ∈ t, x ≤ c) : t.foldl max b ≤ c := by
  induction t generalizing b with
  | nil => exact hb
  | cons y t ih =>
      simp only [List.foldl_cons]
      exact ih (max b y) (max_le hb (h y (List.mem_cons_self y t)))
        (fun x hx => h x (List.mem_cons_of_mem y hx))

lemma listMax_le {l : List Int} {c : Int} (hl : l ≠ [])
    (h : ∀ x ∈ l, x ≤ c) : listMax l ≤ c := by
  cases l with
  | nil => exact absurd rfl hl
  | cons y t =>
      exact foldl_max_le t y c (h y (List.mem_cons_self y t))
        (fun x hx => h x (List.mem_cons_of_mem y hx))

/-- The score range every computed vector satisfies: nothing above `500`,
and some entry (one of a legal action) in `[-500, 500]`. -/
def VecOK (v : List Int) : Prop :=
  (∀ x ∈ v, x ≤ 500) ∧ (∃ x ∈ v, -500 ≤ x ∧ x ≤ 500)

def CacheOK (c : Cache) : Prop := ∀ kv ∈ c, VecOK kv.2

lemma cacheOK_nil : CacheOK [] := by intro kv h; simp at h

lemma listMax_bounds {v : List Int} (h : VecOK v) :
    -500 ≤ listMax v ∧ listMax v ≤ 500 := by
  obtain ⟨x, hx, hxl, hxu⟩ := h.2
  exact ⟨le_trans hxl (le_listMax hx),
    listMax_le (List.ne_nil_of_mem hx) h.1⟩

lemma cacheOK_lookup {c : Cache} {k v : List Int} (hC : CacheOK c)
    (h : List.lookup k c = some v) : VecOK v := by
  obtain ⟨k', hk'⟩ := lookup_mem h
  exact hC (k', v) hk'

lemma getD_mem {l : List Int} {i : Nat} (hi : i < l.length) (d : Int) :
    l.getD i d ∈ l := by
  rw [List.getD_eq_getElem?_getD, List.getElem?_eq_getElem hi]
  exact List.getElem_mem hi

lemma dotEval_bound : ∀ (w f : List Int),
    (∀ v ∈ f, v = -1 ∨ v = 0 ∨ v = 1) →
    |dotEval w f| ≤ (w.map (fun x => |x|)).sum := by
  intro w
  induction w with
  | nil => intro f _; simp [dotEval]
  | cons a w ih =>
      intro f hf
      cases f with
      | nil =>
          simp only [dotEval, List.zipWith_nil_right, List.sum_nil,
            abs_zero, List.map_cons, List.sum_cons]
          have h1 : (0 : Int) ≤ (w.map (fun x => |x|)).sum := by
            apply List.sum_nonneg
            intro x hx
            obtain ⟨y, -, rfl⟩ := List.mem_map.1 hx
            exact abs_nonneg y
          have h2 := abs_nonneg a
          omega
      | cons b f2 =>
          have hb : |b| ≤ 1 := by
            rcases hf b (List.mem_cons_self b f2) with h | h | h <;>
              rw [h] <;> norm_num
          have htail := ih f2 (fun v hv => hf v (List.mem_cons_of_mem b hv))
          simp only [dotEval, List.zipWith_cons_cons, List.sum_cons,
            List.map_cons] at *
          calc |a * b + (List.zipWith (· * ·) w f2).sum|
              ≤ |a * b| + |(List.zipWith (· * ·) w f2).sum| := abs_add _ _
            _ ≤ |a| * |b| + (w.map (fun x => |x|)).sum := by
                rw [abs_mul]; exact add_le_add (le_refl _) htail
            _ ≤ |a| * 1 + (w.map (fun x => |x|)).sum := by
                have : |a| * |b| ≤ |a| * 1 :=
                  mul_le_mul_of_nonneg_left hb (abs_nonneg a)
                omega
            _ = |a| + (w.map (fun x => |x|)).sum := by ring

lemma heuristic_bound (e2 : Othello)
    (hent : ∀ v ∈ e2.field, v = -1 ∨ v = 0 ∨ v = 1) :
    -500 ≤ heuristic e2 ∧ heuristic e2 ≤ 500 := by
  unfold heuristic
  split_ifs
  · have h := dotEval_bound evals8x8 e2.field hent
    have hs : ((evals8x8.map (fun x => |x|)).sum : Int) = 344 := by decide
    rw [hs, abs_le] at h
    omega
  · have h := dotEval_bound evals6x6 e2.field hent
    have hs : ((evals6x6.map (fun x => |x|)).sum : Int) = 300 := by decide
    rw [hs, abs_le] at h
    omega
  · norm_num

lemma call_step_rewards (e : Othello) (a : Nat) :
    ((call_step e a).2.1 = -1 ∨ (call_step e a).2.1 = 0 ∨
      (call_step e a).2.1 = 1) ∧
    ((call_step e a).2.2.1 = -1 ∨ (call_step e a).2.2.1 = 0 ∨
      (call_step e a).2.2.1 = 1) := by
  rw [call_step_def]
  split_ifs <;> simp

lemma filter_split_length (l : List Nat) (p : Nat → Bool) :
    (l.filter p).length + (l.filter (fun a => !(p a))).length = l.length := by
  induction l with
  | nil => rfl
  | cons a l ih =>
      by_cases h : p a <;> simp [List.filter_cons, h] <;> omega

lemma put_num_eq_valid_length (e : Othello) (q : Nat) :
    put_num e q = (get_valid_actions e q).length := by
  unfold put_num get_valid_actions get_invalid_actions
  have hsplit := filter_split_length (List.range (e.H * e.W))
    (fun a => ((mdirs e q).getD a []).isEmpty)
  rw [List.length_range] at hsplit
  rw [Nat.mul_comm e.W e.H]
  omega

lemma my_player_eq (x : Othello)
    (hp : x.player_index = 0 ∨ x.player_index = 1) :
    my_player x = x.player_index := by
  unfold my_player
  rcases hp with h | h <;> rw [h] <;> simp

/-- A non-terminal `call_step` always leaves the next mover with at least
one legal action: the episode only continues when somebody can move, and
an automatic pass keeps the mover who can. -/
lemma call_step_nondone_child_valid (e : Othello) (a : Nat)
    (hp : e.player_index = 0 ∨ e.player_index = 1)
    (hleg : (mdirs e e.player_index).getD a [] ≠ [])
    (hnd : (call_step e a).2.2.2.1 = false) :
    get_valid_actions (call_step e a).1
      ((call_step e a).1.player_index) ≠ [] := by
  rw [call_step_def, if_neg (isEmpty_false_of_ne_nil hleg)] at hnd ⊢
  have hpm : (step_move { e with action := a } a).player_index = 0 ∨
      (step_move { e with action := a } a).player_index = 1 := hp
  by_cases h1 : put_num (step_move { e with action := a } a)
      (enemy_player (step_move { e with action := a } a)) = 0 ∧
      put_num (step_move { e with action := a } a)
        (my_player (step_move { e with action := a } a)) = 0
  · rw [if_pos h1] at hnd
    split_ifs at hnd
  · rw [if_neg h1] at hnd ⊢
    by_cases h2 : put_num (step_move { e with action := a } a)
        (enemy_player (step_move { e with action := a } a)) = 0
    · rw [if_pos h2]
      -- automatic pass: the mover keeps the turn and can move
      show get_valid_actions (step_move { e with action := a } a)
        (step_move { e with action := a } a).player_index ≠ []
      have hmy : put_num (step_move { e with action := a } a)
          (my_player (step_move { e with action := a } a)) ≠ 0 :=
        fun hc => h1 ⟨h2, hc⟩
      rw [put_num_eq_valid_length, my_player_eq _ hpm] at hmy
      intro hc
      rw [hc] at hmy
      exact hmy rfl
    · rw [if_neg h2]
      -- normal alternation: the opponent can move
      show get_valid_actions (step_move { e with action := a } a)
        (enemy_player (step_move { e with action := a } a)) ≠ []
      rw [put_num_eq_valid_length] at h2
      intro hc
      rw [hc] at h2
      exact h2 rfl

/-- Bound analysis of one node's action loop: every written score lies in
`[-500, 500]` (terminal rewards scale to `±500`, heuristic sums are
smaller in magnitude, recursive values are bounded maxima), the cache
stays `CacheOK`, and untouched entries keep their previous value. -/
lemma negamax_fold_bounds (md fuel depth : Nat) (e : Othello)
    (hWF : WF e)
    (hrec : depth ≤ md → ∀ e2 c2, WF e2 →
      get_valid_actions e2 e2.player_index ≠ [] → CacheOK c2 →
      CacheOK (negamax md fuel e2 (depth + 1) c2).2 ∧
      VecOK (negamax md fuel e2 (depth + 1) c2).1) :
    ∀ (l : List Nat) (sc : List Int) (c : Cache),
    (∀ a ∈ l, a ∈ get_valid_actions e e.player_index) →
    (∀ x ∈ sc, x ≤ 500) → sc.length = e.W * e.H → CacheOK c →
    CacheOK (l.foldl (negamaxStep md depth e
      (fun e2 c2 => negamax md fuel e2 (depth + 1) c2)) (sc, c)).2 ∧
    (∀ x ∈ (l.foldl (negamaxStep md depth e
      (fun e2 c2 => negamax md fuel e2 (depth + 1) c2)) (sc, c)).1,
      x ≤ 500) ∧
    (l.foldl (negamaxStep md depth e
      (fun e2 c2 => negamax md fuel e2 (depth + 1) c2)) (sc, c)).1.length =
      e.W * e.H ∧
    (∀ b ∈ l, -500 ≤ (l.foldl (negamaxStep md depth e
      (fun e2 c2 => negamax md fuel e2 (depth + 1) c2)) (sc, c)).1.getD
        b (-999) ∧
      (l.foldl (negamaxStep md depth e
        (fun e2 c2 => negamax md fuel e2 (depth + 1) c2)) (sc, c)).1.getD
        b (-999) ≤ 500) ∧
    (∀ b, b ∉ l → (l.foldl (negamaxStep md depth e
      (fun e2 c2 => negamax md fuel e2 (depth + 1) c2)) (sc, c)).1.getD
        b (-999) = sc.getD b (-999)) := by
  intro l
  induction l with
  | nil =>
      intro sc c _ hsc hlen hC
      exact ⟨hC, hsc, hlen, by simp, fun b _ => rfl⟩
  | cons a l ih =>
      intro sc c hmem hsc hlen hC
      have ha := hmem a (List.mem_cons_self a l)
      have hlega : (mdirs e e.player_index).getD a [] ≠ [] :=
        ((mem_valid_iff e e.player_index a).1 ha).2
      have haN : a < sc.length := by
        rw [hlen, Nat.mul_comm]
        exact ((mem_valid_iff e e.player_index a).1 ha).1
      have hkey : ∃ w c2, negamaxStep md depth e
          (fun e2 c2 => negamax md fuel e2 (depth + 1) c2) (sc, c) a =
          (sc.set a w, c2) ∧ -500 ≤ w ∧ w ≤ 500 ∧ CacheOK c2 := by
        by_cases hdone : (call_step e a).2.2.2.1 = true
        · refine ⟨(if e.player_index = 0 then (call_step e a).2.1
              else (call_step e a).2.2.1) * 500, c, ?_, ?_, ?_, hC⟩
          · unfold negamaxStep
            rw [if_pos hdone]
          · have hr : (if e.player_index = 0 then (call_step e a).2.1
                else (call_step e a).2.2.1) = -1 ∨
                (if e.player_index = 0 then (call_step e a).2.1
                else (call_step e a).2.2.1) = 0 ∨
                (if e.player_index = 0 then (call_step e a).2.1
                else (call_step e a).2.2.1) = 1 := by
              by_cases hp0 : e.player_index = 0 <;> simp only [hp0] <;>
                simp only [if_true, if_false, reduceIte] <;>
                first
                  | exact (call_step_rewards e a).1
                  | exact (call_step_rewards e a).2
            rcases hr with h | h | h <;> rw [h] <;> norm_num
          · have hr : (if e.player_index = 0 then (call_step e a).2.1
                else (call_step e a).2.2.1) = -1 ∨
                (if e.player_index = 0 then (call_step e a).2.1
                else (call_step e a).2.2.1) = 0 ∨
                (if e.player_index = 0 then (call_step e a).2.1
                else (call_step e a).2.2.1) = 1 := by
              by_cases hp0 : e.player_index = 0 <;> simp only [hp0] <;>
                simp only [if_true, if_false, reduceIte] <;>
                first
                  | exact (call_step_rewards e a).1
                  | exact (call_step_rewards e a).2
            rcases hr with h | h | h <;> rw [h] <;> norm_num
        · have hnd : (call_step e a).2.2.2.1 = false := by simpa using hdone
          have hchWF := call_step_WF e a hWF
          by_cases hcut : md < depth
          · refine ⟨(if e.player_index ≠ 0
                then -(heuristic (call_step e a).1)
                else heuristic (call_step e a).1), c, ?_, ?_, ?_, hC⟩
            · simp [negamaxStep, hnd, hcut]
            · have hb := heuristic_bound (call_step e a).1 hchWF.2.1
              by_cases hp0 : e.player_index = 0 <;> simp [hp0] <;> omega
            · have hb := heuristic_bound (call_step e a).1 hchWF.2.1
              by_cases hp0 : e.player_index = 0 <;> simp [hp0] <;> omega
          · have hdm : depth ≤ md := by omega
            have hrec2 := hrec hdm (call_step e a).1 c hchWF
              (call_step_nondone_child_valid e a hWF.2.2.1 hlega hnd) hC
            have hlb := listMax_bounds hrec2.2
            refine ⟨(if e.player_index ≠ (call_step e a).1.player_index
                then -(listMax (negamax md fuel (call_step e a).1
                  (depth + 1) c).1)
                else listMax (negamax md fuel (call_step e a).1
                  (depth + 1) c).1),
              (negamax md fuel (call_step e a).1 (depth + 1) c).2,
              ?_, ?_, ?_, hrec2.1⟩
            · simp [negamaxStep, hnd, hcut]
            · by_cases hp0 : e.player_index =
                  (call_step e a).1.player_index <;> simp [hp0] <;> omega
            · by_cases hp0 : e.player_index =
                  (call_step e a).1.player_index <;> simp [hp0] <;> omega
      obtain ⟨w, c2, hstep, hwl, hwu, hC2⟩ := hkey
      simp only [List.foldl_cons, hstep]
      obtain ⟨hG, hub, hlen2, hbounds, hpres⟩ := ih (sc.set a w) c2
        (fun b hb => hmem b (List.mem_cons_of_mem a hb))
        (by
          intro x hx
          rcases List.mem_or_eq_of_mem_set hx with hx | hx
          · exact hsc x hx
          · rw [hx]; exact hwu)
        (by simp [hlen]) hC2
      refine ⟨hG, hub, hlen2, ?_, ?_⟩
      · intro b hb
        rcases List.mem_cons.1 hb with rfl | hb2
        · by_cases hbl : b ∈ l
          · exact hbounds b hbl
          · rw [hpres b hbl, List.getD_eq_getElem?_getD,
              List.getElem?_set_eq_of_lt _ haN]
            exact ⟨hwl, hwu⟩
        · exact hbounds b hb2
      · intro b hb
        rw [hpres b (fun h => hb (List.mem_cons_of_mem a h)),
          List.getD_eq_getElem?_getD, List.getD_eq_getElem?_getD,
          List.getElem?_set_ne
            (fun h => hb (by subst h; exact List.mem_cons_self a l))]

lemma negamax_succ_hit (md fuel : Nat) (e : Othello) (depth : Nat)
    (c : Cache) (v : List Int) (hl : List.lookup e.field c = some v) :
    negamax md (fuel + 1) e depth c = (v, c) := by
  show (match List.lookup e.field c with
    | some v => (v, c)
    | none =>
      let res := (get_valid_actions e e.player_index).foldl
        (negamaxStep md depth e
          (fun e2 c2 => negamax md fuel e2 (depth + 1) c2))
        (List.replicate (e.W * e.H) (-999), c)
      (res.1, (e.field, res.1) :: res.2)) = _
  rw [hl]

lemma negamax_succ_miss (md fuel : Nat) (e : Othello) (depth : Nat)
    (c : Cache) (hl : List.lookup e.field c = none) :
    negamax md (fuel + 1) e depth c =
      (((get_valid_actions e e.player_index).foldl
          (negamaxStep md depth e
            (fun e2 c2 => negamax md fuel e2 (depth + 1) c2))
          (List.replicate (e.W * e.H) (-999), c)).1,
       (e.field, ((get_valid_actions e e.player_index).foldl
          (negamaxStep md depth e
            (fun e2 c2 => negamax md fuel e2 (depth + 1) c2))
          (List.replicate (e.W * e.H) (-999), c)).1) ::
        ((get_valid_actions e e.player_index).foldl
          (negamaxStep md depth e
            (fun e2 c2 => negamax md fuel e2 (depth + 1) c2))
          (List.replicate (e.W * e.H) (-999), c)).2) := by
  show (match List.lookup e.field c with
    | some v => (v, c)
    | none =>
      let res := (get_valid_actions e e.player_index).foldl
        (negamaxStep md depth e
          (fun e2 c2 => negamax md fuel e2 (depth + 1) c2))
        (List.replicate (e.W * e.H) (-999), c)
      (res.1, (e.field, res.1) :: res.2)) = _
  rw [hl]

/-- Every `_negamax` vector computed at a well-formed state with at least
one legal action keeps scores at most `500`, holds some entry in
`[-500, 500]`, and preserves these properties across the cache — given
enough fuel for the bounded recursion depth. -/
lemma negamax_bounds (md : Nat) :
    ∀ (fuel : Nat) (e : Othello) (depth : Nat) (c : Cache),
    WF e → get_valid_actions e e.player_index ≠ [] → CacheOK c →
    1 ≤ fuel → md + 2 ≤ depth + fuel →
    CacheOK (negamax md fuel e depth c).2 ∧
    VecOK (negamax md fuel e depth c).1 := by
  intro fuel
  induction fuel with
  | zero => intro e depth c _ _ _ hf _; omega
  | succ fuel ih =>
      intro e depth c hWF hval hC _ hfd
      cases hl : List.lookup e.field c with
      | some v =>
          rw [negamax_succ_hit md fuel e depth c v hl]
          exact ⟨hC, cacheOK_lookup hC hl⟩
      | none =>
          rw [negamax_succ_miss md fuel e depth c hl]
          have hrec : depth ≤ md → ∀ e2 c2, WF e2 →
              get_valid_actions e2 e2.player_index ≠ [] → CacheOK c2 →
              CacheOK (negamax md fuel e2 (depth + 1) c2).2 ∧
              VecOK (negamax md fuel e2 (depth + 1) c2).1 :=
            fun hdm e2 c2 hw hv hc =>
              ih e2 (depth + 1) c2 hw hv hc (by omega) (by omega)
          obtain ⟨hG, hub, hlen2, hbounds, -⟩ :=
            negamax_fold_bounds md fuel depth e hWF hrec
              (get_valid_actions e e.player_index)
              (List.replicate (e.W * e.H) (-999)) c
              (fun _ hb => hb)
              (by
                intro x hx
                rw [List.eq_of_mem_replicate hx]
                norm_num)
              (by simp) hC
          obtain ⟨a0, ha0m⟩ := List.exists_mem_of_ne_nil _ hval
          have hb0 := hbounds a0 ha0m
          have ha0N : a0 < ((get_valid_actions e e.player_index).foldl
              (negamaxStep md depth e
                (fun e2 c2 => negamax md fuel e2 (depth + 1) c2))
              (List.replicate (e.W * e.H) (-999), c)).1.length := by
            rw [hlen2, Nat.mul_comm]
            exact ((mem_valid_iff e e.player_index a0).1 ha0m).1
          have hVec : VecOK ((get_valid_actions e e.player_index).foldl
              (negamaxStep md depth e
                (fun e2 c2 => negamax md fuel e2 (depth + 1) c2))
              (List.replicate (e.W * e.H) (-999), c)).1 :=
            ⟨hub, ⟨_, getD_mem ha0N (-999), hb0.1, hb0.2⟩⟩
          refine ⟨?_, hVec⟩
          intro kv hkv
          rcases List.mem_cons.1 hkv with rfl | hkv2
          · exact hVec
          · exact hG kv hkv2

/-- C10 (claims file): on a fresh (empty) transposition cache, every legal
action of a well-formed state with at least one legal move scores at
least `-500` in the root vector, every illegal action keeps the `-999`
sentinel, and therefore the uniform argmax tie-break of `call_policy`
only ever contains legal actions. -/
theorem policy_selects_legal (md : Nat) (e : Othello)
    (hWF : WF e) (hne : get_valid_actions e e.player_index ≠ []) :
    (∀ a ∈ get_valid_actions e e.player_index,
      -500 ≤ (policyScores md e).getD a (-999) ∧
      (policyScores md e).getD a (-999) ≤ 500) ∧
    (∀ i, i ∉ get_valid_actions e e.player_index →
      (policyScores md e).getD i (-999) = -999) ∧
    (∀ i ∈ policyArgmax md e, i ∈ get_valid_actions e e.player_index) := by
  have hred : policyScores md e =
      ((get_valid_actions e e.player_index).foldl
        (negamaxStep md 0 e
          (fun e2 c2 => negamax md (md + 1) e2 (0 + 1) c2))
        (List.replicate (e.W * e.H) (-999), [])).1 := by
    unfold policyScores
    rw [show md + 2 = (md + 1) + 1 from rfl,
      negamax_succ_miss md (md + 1) e 0 [] rfl]
  have hrec : 0 ≤ md → ∀ e2 c2, WF e2 →
      get_valid_actions e2 e2.player_index ≠ [] → CacheOK c2 →
      CacheOK (negamax md (md + 1) e2 (0 + 1) c2).2 ∧
      VecOK (negamax md (md + 1) e2 (0 + 1) c2).1 :=
    fun _ e2 c2 hw hv hc =>
      negamax_bounds md (md + 1) e2 (0 + 1) c2 hw hv hc (by omega) (by omega)
  obtain ⟨-, -, hlen2, hbounds, hpres⟩ :=
    negamax_fold_bounds md (md + 1) 0 e hWF hrec
      (get_valid_actions e e.player_index)
      (List.replicate (e.W * e.H) (-999)) []
      (fun _ hb => hb)
      (by
        intro x hx
        rw [List.eq_of_mem_replicate hx]
        norm_num)
      (by simp) cacheOK_nil
  have hinv : ∀ i, i ∉ get_valid_actions e e.player_index →
      (policyScores md e).getD i (-999) = -999 := by
    intro i hi
    rw [hred, hpres i hi, getD_replicate]
  refine ⟨fun a ha => by rw [hred]; exact hbounds a ha, hinv, ?_⟩
  intro i hi
  unfold policyArgmax at hi
  rw [List.mem_filter] at hi
  have hieq : (policyScores md e).getD i (-999) =
      listMax (policyScores md e) := by
    have := hi.2
    rwa [beq_iff_eq] at this
  by_contra hni
  obtain ⟨a0, ha0m⟩ := List.exists_mem_of_ne_nil _ hne
  have hb0 : -500 ≤ (policyScores md e).getD a0 (-999) := by
    rw [hred]; exact (hbounds a0 ha0m).1
  have ha0N : a0 < (policyScores md e).length := by
    rw [hred, hlen2, Nat.mul_comm]
    exact ((mem_valid_iff e e.player_index a0).1 ha0m).1
  have hmax : -500 ≤ listMax (policyScores md e) :=
    le_trans hb0 (le_listMax (getD_mem ha0N (-999)))
  rw [hinv i hni] at hieq
  omega

theorem policy_selects_legal_witness :
    (∀ a ∈ get_valid_actions (call_reset 4 4) (call_reset 4 4).player_index,
      -500 ≤ (policyScores 2 (call_reset 4 4)).getD a (-999) ∧
      (policyScores 2 (call_reset 4 4)).getD a (-999) ≤ 500) ∧
    (∀ i, i ∉ get_valid_actions (call_reset 4 4)
        (call_reset 4 4).player_index →
      (policyScores 2 (call_reset 4 4)).getD i (-999) = -999) ∧
    (∀ i ∈ policyArgmax 2 (call_reset 4 4),
      i ∈ get_valid_actions (call_reset 4 4)
        (call_reset 4 4).player_index) :=
  policy_selects_legal 2 (call_reset 4 4) (by decide) (by decide)
